import Mathlib

/-!
Verification of the inkGrid glyph-extraction core against its specification.

The Python sources under `scripts/` are shallowly embedded in Lean:
machine floats that only ever hold exact small decimals are modelled as `ℚ`,
Python `int`s as `ℤ` (or `ℕ` where the pipeline guarantees nonnegativity and
Python/ℕ truncation semantics provably coincide, noted at each definition),
numpy boolean rasters as `ℕ → ℕ → Bool` with explicit bounds, and Python
`round` (banker's rounding) as `pyRound`.
-/

namespace InkGrid

/-- Python `round` on an exact rational: round half to even (banker's rounding),
as used by `int(round(x))` throughout the scripts. -/
def pyRound (q : ℚ) : ℤ :=
  let f := ⌊q⌋
  let r := q - f
  if r < 1/2 then f
  else if 1/2 < r then f + 1
  else if Even f then f else f + 1

/-- Python `n | 1` on a nonnegative int (force odd), used for the smoothing window. -/
def pyOr1 (n : ℕ) : ℕ := if n % 2 = 0 then n + 1 else n


/-! ## InkMask (`scripts/extract_lantingjixu_chars.py::ink_mask`,
`scripts/qa_char_crops.py::ink_mask`)

`gray = 0.299 r + 0.587 g + 0.114 b` is modelled exactly in `ℚ`;
`ink = gray < threshold`, `seal = (r>120) ∧ (r−g>40) ∧ (r−b>40) ∧ (gray>82)`,
`mask = ink ∧ ¬seal`. -/

/-- One pixel of `extract_lantingjixu_chars.ink_mask`. -/
def ink_mask_px (r g b : ℤ) (ink_threshold : ℤ) : Bool :=
  let gray : ℚ := ((299 * r + 587 * g + 114 * b : ℤ) : ℚ) / 1000
  let redish : Bool := decide (120 < r) && decide (40 < r - g) && decide (40 < r - b)
  let sealLike : Bool := redish && decide ((82 : ℚ) < gray)
  decide (gray < (ink_threshold : ℚ)) && !sealLike

/-- One pixel of `qa_char_crops.ink_mask` (textually identical computation). -/
def qa_ink_mask_px (r g b : ℤ) (ink_threshold : ℤ) : Bool :=
  let gray : ℚ := ((299 * r + 587 * g + 114 * b : ℤ) : ℚ) / 1000
  let redish : Bool := decide (120 < r) && decide (40 < r - g) && decide (40 < r - b)
  let sealLike : Bool := redish && decide ((82 : ℚ) < gray)
  decide (gray < (ink_threshold : ℚ)) && !sealLike

/-- Whole-array `ink_mask` over an RGB raster (rows of (r,g,b) triples). -/
def ink_mask (arr : List (List (ℤ × ℤ × ℤ))) (ink_threshold : ℤ) : List (List Bool) :=
  arr.map (fun row => row.map (fun p => ink_mask_px p.1 p.2.1 p.2.2 ink_threshold))

/-- Whole-array `qa_char_crops.ink_mask`. -/
def qa_ink_mask (arr : List (List (ℤ × ℤ × ℤ))) (ink_threshold : ℤ) : List (List Bool) :=
  arr.map (fun row => row.map (fun p => qa_ink_mask_px p.1 p.2.1 p.2.2 ink_threshold))




/-! ## ContactAnalyzer and CropRefiner
(`extract_lantingjixu_chars.py::contact_ring_ink_directional`, lines 779-854,
and `::expand_crop_box_by_contact`, lines 88-161)

The page ink mask is a boolean raster `Grid`.  Box coordinates are `ℕ`:
in the pipeline every coordinate fed to these functions is a nonnegative
Python int, and each subtraction below is immediately clamped by
`max 0` in the source, so ℕ truncated subtraction coincides with the
Python arithmetic.  numpy slices `a[lo:hi]` over nonnegative indices clip
at the array bound and are empty for `hi ≤ lo`, exactly like
`List.range' lo (hi - lo)` over in-range coordinates. -/

/-- A boolean page raster of height `h` and width `w`. -/
structure Grid where
  h : ℕ
  w : ℕ
  ink : ℕ → ℕ → Bool

/-- Number of set cells of `p` in rows `[y0, y1)` and columns `[x0, x1)`. -/
def countRect (p : ℕ → ℕ → Bool) (y0 y1 x0 x1 : ℕ) : ℕ :=
  ((List.range' y0 (y1 - y0)).map
    (fun y => (List.range' x0 (x1 - x0)).countP (fun x => p y x))).sum

/-- Result record of `contact_ring_ink_directional`. -/
structure ContactInk where
  total : ℕ
  left : ℕ
  right : ℕ
  top : ℕ
  bottom : ℕ
  deriving DecidableEq, Repr

/-- Ink of `G` inside the crop box clipped to the page: the `inner` array of the
source, expressed in page coordinates. -/
def innerInk (G : Grid) (x0 y0 x1 y1 : ℕ) (y x : ℕ) : Bool :=
  decide (y0 ≤ y) && decide (y < min y1 G.h) && decide (x0 ≤ x) && decide (x < min x1 G.w) &&
    G.ink y x

/-- Ink of `G` in the outer window minus the clipped box: the `ring` array of the
source, in page coordinates. -/
def ringInk (G : Grid) (x0 y0 x1 y1 ex0 ey0 ex1 ey1 : ℕ) (y x : ℕ) : Bool :=
  decide (ey0 ≤ y) && decide (y < ey1) && decide (ex0 ≤ x) && decide (x < ex1) &&
    !(decide (y0 ≤ y) && decide (y < min y1 G.h) && decide (x0 ≤ x) && decide (x < min x1 G.w)) &&
    G.ink y x

/-- 3x3 dilation of the inner ink (zero padded), in page coordinates. -/
def dilInk (G : Grid) (x0 y0 x1 y1 : ℕ) (y x : ℕ) : Bool :=
  (List.range 3).any (fun dy => (List.range 3).any (fun dx =>
    decide (1 ≤ y + dy) && decide (1 ≤ x + dx) &&
      innerInk G x0 y0 x1 y1 (y + dy - 1) (x + dx - 1)))

/-- Contact cells: ring ink 8-adjacent to inner ink. -/
def contactInk (G : Grid) (x0 y0 x1 y1 ex0 ey0 ex1 ey1 : ℕ) (y x : ℕ) : Bool :=
  ringInk G x0 y0 x1 y1 ex0 ey0 ex1 ey1 y x && dilInk G x0 y0 x1 y1 y x

/-- `contact_ring_ink_directional(page_ink, crop_box, ring_px, band_ratio)`.
The source computes local arrays `outer`, `ring`, `inner`, a 3x3 dilation and
directional band slices; here the same sets are expressed in page coordinates
(the coordinate translation is spelled out in the comments of each helper).
`band_ratio` floats (`0.6`, `(1.0-band)*0.5*inner_w` with subsequent `int`
truncation) are modelled exactly in `ℚ` with `Int.toNat ∘ Int.floor`. -/
def contact_ring_ink_directional (G : Grid) (x0 y0 x1 y1 : ℕ) (ring_px : ℕ)
    (band_ratio : ℚ) : ContactInk :=
  let r := max 1 ring_px
  let ex0 := x0 - r
  let ey0 := y0 - r
  let ex1 := min G.w (x1 + r)
  let ey1 := min G.h (y1 + r)
  if ex1 ≤ ex0 + 1 ∨ ey1 ≤ ey0 + 1 then ⟨0, 0, 0, 0, 0⟩ else
  let c := contactInk G x0 y0 x1 y1 ex0 ey0 ex1 ey1
  let total := countRect c ey0 ey1 ex0 ex1
  if total = 0 then ⟨0, 0, 0, 0, 0⟩ else
  let EW := ex1 - ex0
  let EH := ey1 - ey0
  let ix0 := x0 - ex0
  let iy0 := y0 - ey0
  let ix1 := min (x1 - ex0) EW
  let iy1 := min (y1 - ey0) EH
  let β : ℚ := max (1/5) (min 1 band_ratio)
  let inner_w : ℕ := max 1 (ix1 - ix0)
  let inner_h : ℕ := max 1 (iy1 - iy0)
  let band_x0 : ℕ := min (Int.toNat ⌊(ix0 : ℚ) + (1 - β) / 2 * inner_w⌋) EW
  let band_x1 : ℕ := min (Int.toNat ⌊(ix1 : ℚ) - (1 - β) / 2 * inner_w⌋) EW
  let band_y0 : ℕ := min (Int.toNat ⌊(iy0 : ℚ) + (1 - β) / 2 * inner_h⌋) EH
  let band_y1 : ℕ := min (Int.toNat ⌊(iy1 : ℚ) - (1 - β) / 2 * inner_h⌋) EH
  let left := countRect c (ey0 + band_y0) (ey0 + band_y1) ex0 (ex0 + ix0)
  let right := countRect c (ey0 + band_y0) (ey0 + band_y1) (ex0 + ix1) ex1
  let top := countRect c ey0 (ey0 + iy0) (ex0 + band_x0) (ex0 + band_x1)
  let bottom := countRect c (ey0 + iy1) ey1 (ex0 + band_x0) (ex0 + band_x1)
  ⟨total, left, right, top, bottom⟩

/-- A crop box `[x0, y0, x1, y1]`. -/
structure Box4 where
  x0 : ℕ
  y0 : ℕ
  x1 : ℕ
  y1 : ℕ
  deriving DecidableEq, Repr

/-- One-or-more iterations of the `for _ in range(max_iter)` loop of
`expand_crop_box_by_contact` (lines 118-159), with `fuel` remaining
iterations.  `step_x = 8`, `step_y = 14` as in the source.  The four
directions are updated independently exactly as the sorted-`dirs` loop does,
and the "if nothing changes, stop" test uses the measured contact together
with the updated coordinates, as in the source. -/
def expand_loop (G : Grid) (safe_x0 safe_x1 safe_y0 safe_y1 : ℕ)
    (ring_px accept trigger : ℕ) : ℕ → Box4 → Box4
  | 0, b => b
  | fuel + 1, b =>
    let c := contact_ring_ink_directional G b.x0 b.y0 b.x1 b.y1 ring_px (3/5)
    if c.total ≤ accept then b
    else
      let maxv := max (max c.left c.right) (max c.top c.bottom)
      if maxv < trigger then b
      else
        let nx0 := if trigger ≤ c.left ∧ safe_x0 < b.x0 then max safe_x0 (b.x0 - 8) else b.x0
        let nx1 := if trigger ≤ c.right ∧ b.x1 < safe_x1 then min safe_x1 (b.x1 + 8) else b.x1
        let ny0 := if trigger ≤ c.top ∧ safe_y0 < b.y0 then max safe_y0 (b.y0 - 14) else b.y0
        let ny1 := if trigger ≤ c.bottom ∧ b.y1 < safe_y1 then min safe_y1 (b.y1 + 14) else b.y1
        if (c.left < trigger ∨ nx0 = safe_x0) ∧ (c.right < trigger ∨ nx1 = safe_x1) ∧
            (c.top < trigger ∨ ny0 = safe_y0) ∧ (c.bottom < trigger ∨ ny1 = safe_y1)
        then ⟨nx0, ny0, nx1, ny1⟩
        else expand_loop G safe_x0 safe_x1 safe_y0 safe_y1 ring_px accept trigger fuel
          ⟨nx0, ny0, nx1, ny1⟩

/-- `expand_crop_box_by_contact` (lines 88-161): clamp the box into the safe
bounds, return immediately if degenerate (`x1 ≤ x0+1` or `y1 ≤ y0+1`),
otherwise run the expansion loop. -/
def expand_crop_box_by_contact (G : Grid) (crop : Box4)
    (safe_x0 safe_x1 safe_y0 safe_y1 : ℕ) (ring_px accept trigger max_iter : ℕ) : Box4 :=
  let x0 := max safe_x0 crop.x0
  let x1 := min safe_x1 crop.x1
  let y0 := max safe_y0 crop.y0
  let y1 := min safe_y1 crop.y1
  if x1 ≤ x0 + 1 ∨ y1 ≤ y0 + 1 then ⟨x0, y0, x1, y1⟩
  else expand_loop G safe_x0 safe_x1 safe_y0 safe_y1 ring_px accept trigger max_iter
    ⟨x0, y0, x1, y1⟩

/-- `soft_bleed_y = int(min(40, max(12, round(float(cell_h) * 0.25))))` from
`main` (line 517). -/
def soft_bleed_y (cell_h : ℕ) : ℕ :=
  min 40 (max 12 (pyRound ((cell_h : ℚ) * (1/4))).toNat)

/-- The final contact-refinement call of the per-cell pipeline
(`main`, lines 512-532): the x-bounds are the cell's safe column bounds, but
the y-bounds passed to `expand_crop_box_by_contact` are the safe row bounds
soft-expanded by `soft_bleed_y` (clamped to the page), with
`ring_px=8, accept=15, trigger=12, max_iter=16`. -/
def refine_final_crop (G : Grid) (cb_safe_x0 cb_safe_x1 rb_safe_y0 rb_safe_y1 : ℕ)
    (cell_h img_h : ℕ) (crop : Box4) : Box4 :=
  let soft_y0 := rb_safe_y0 - soft_bleed_y cell_h
  let soft_y1 := min img_h (rb_safe_y1 + soft_bleed_y cell_h)
  expand_crop_box_by_contact G crop cb_safe_x0 cb_safe_x1 soft_y0 soft_y1 8 15 12 16

/-! ## SafeCorridors
(`extract_lantingjixu_chars.py::compute_safe_row_bounds`, lines 164-200, and
`::compute_safe_column_bounds`, lines 940-985)

Coordinates are Python ints, modelled as `ℤ`.  `int(round((a+b)/2.0))` on
ints `a, b` is exact in float and equals `pyRound ((a+b)/2)`. -/

/-- `CharBox` dataclass. -/
structure CharBox where
  x0 : ℤ
  y0 : ℤ
  x1 : ℤ
  y1 : ℤ
  deriving DecidableEq, Repr

/-- `RowCropBounds` dataclass. -/
structure RowCropBounds where
  cell : CharBox
  safe_y0 : ℤ
  safe_y1 : ℤ
  deriving DecidableEq, Repr

/-- `ColumnBox` dataclass. -/
structure ColumnBox where
  x0 : ℤ
  x1 : ℤ
  deriving DecidableEq, Repr

/-- `ColumnCropBounds` dataclass. -/
structure ColumnCropBounds where
  col : ColumnBox
  safe_x0 : ℤ
  safe_x1 : ℤ
  deriving DecidableEq, Repr

/-- The bleed margin of `compute_safe_row_bounds` (lines 178-180):
`int(max(12, min(28, round(step * 0.12))))` with
`step = max(1, cells[-1].y1 - cells[0].y0) / len(cells)`. -/
def row_bleed (cells : List CharBox) : ℤ :=
  let d : CharBox := ⟨0, 0, 0, 0⟩
  let n := cells.length
  let height : ℤ := max 1 ((cells.getD (n - 1) d).y1 - (cells.getD 0 d).y0)
  let step : ℚ := (height : ℚ) / (n : ℚ)
  max 12 (min 28 (pyRound (step * (12/100))))

/-- The rounded midline between cell `i` and cell `i+1`:
`int(round((cells[i].y1 + cells[i+1].y0) / 2.0))`. -/
def row_mid (cells : List CharBox) (i : ℕ) : ℤ :=
  pyRound ((((cells.getD i ⟨0, 0, 0, 0⟩).y1 + (cells.getD (i + 1) ⟨0, 0, 0, 0⟩).y0 : ℤ) : ℚ) / 2)

/-- `compute_safe_row_bounds(cells, img_h)` (lines 164-200).  All list indices
taken in the source are in range; `getD` with a dummy default is used for them. -/
def compute_safe_row_bounds (cells : List CharBox) (img_h : ℤ) : List RowCropBounds :=
  if cells.length = 0 then [] else
  let n := cells.length
  let d : CharBox := ⟨0, 0, 0, 0⟩
  let bleed : ℤ := row_bleed cells
  List.ofFn (fun i : Fin n =>
    let cell := cells.getD i.1 d
    let raw_y0 : ℤ :=
      if i.1 = 0 then 0
      else row_mid cells (i.1 - 1) - bleed
    let raw_y1 : ℤ :=
      if i.1 = n - 1 then img_h
      else row_mid cells i.1 + bleed
    let sy0 : ℤ := max 0 (min raw_y0 (img_h - 1))
    let sy1 : ℤ := max (sy0 + 1) (min raw_y1 img_h)
    ⟨cell, sy0, sy1⟩)

/-- The right midline of RTL column `i` (toward its right neighbour `i-1`):
`int(round((det[i].x1 + det[i-1].x0) / 2.0))`, or the page edge for `i = 0`. -/
def col_mid_right (det : List ColumnBox) (img_width : ℤ) (i : ℕ) : ℤ :=
  if i = 0 then img_width
  else pyRound ((((det.getD i ⟨0, 0⟩).x1 + (det.getD (i - 1) ⟨0, 0⟩).x0 : ℤ) : ℚ) / 2)

/-- The left midline of RTL column `i` (toward its left neighbour `i+1`):
`int(round((det[i+1].x1 + det[i].x0) / 2.0))`, or `0` for the last column. -/
def col_mid_left (det : List ColumnBox) (n : ℕ) (i : ℕ) : ℤ :=
  if i = n - 1 then 0
  else pyRound ((((det.getD (i + 1) ⟨0, 0⟩).x1 + (det.getD i ⟨0, 0⟩).x0 : ℤ) : ℚ) / 2)

/-- `compute_safe_column_bounds(cols_rtl, detected_cols_rtl, img_width)`
(lines 940-985); columns in right-to-left order, index `i-1` is the right
neighbour and `i+1` the left neighbour. -/
def compute_safe_column_bounds (cols_rtl detected_cols_rtl : List ColumnBox)
    (img_width : ℤ) : List ColumnCropBounds :=
  if cols_rtl.length = 0 then [] else
  let det := if detected_cols_rtl.length ≠ cols_rtl.length then cols_rtl
             else detected_cols_rtl
  let n := cols_rtl.length
  let dC : ColumnBox := ⟨0, 0⟩
  List.ofFn (fun i : Fin n =>
    let col := cols_rtl.getD i.1 dC
    let s0 : ℤ := max 0 (min col.x0 (col_mid_left det n i.1))
    let s1 : ℤ := min img_width (max col.x1 (col_mid_right det img_width i.1))
    if s1 ≤ s0 + 1 then ⟨col, max 0 col.x0, min img_width col.x1⟩
    else ⟨col, s0, s1⟩)

/-! ## AxisPartitioner
(`extract_lantingjixu_chars.py::split_column_into_chars`, lines 1005-1169)

Positions are `ℕ` (`y_top = 0`); every Python int subtraction that can go
negative is immediately compared against a nonnegative bound or clamped by a
`max`, and at each such site ℕ truncated subtraction provably yields the same
branch/value (noted inline).  Costs are exact `ℚ`; the float sentinel
`INF = 1e18` becomes `INFQ`. -/

/-- The DP / float infinity sentinel `1e18`. -/
def INFQ : ℚ := 10 ^ 18

/-- `_smooth_1d(x, win)`: `np.convolve(x, ones(win)/win, mode="same")` for an
odd window `win ≤ len x` (every call in the settled claims satisfies this). -/
def smooth_1d (x : List ℚ) (win : ℕ) : List ℚ :=
  if win ≤ 1 then x else
  let off := (win - 1) / 2
  (List.range x.length).map (fun i =>
    (((List.range win).map (fun j =>
      if i + off < j then 0 else x.getD (i + off - j) 0)).sum) / win)

/-- `y_expect = int(y_top + round(step * i))` with `y_top = 0`. -/
def y_expect_at (step : ℚ) (i : ℕ) : ℕ := (pyRound (step * i)).toNat

/-- Candidate window `[lo, hi)` for interior boundary `i` (lines 1059-1072):
branch 1 is the `search_win` window, branch 2 the `±2` window when branch 1 is
degenerate, branch 3 the single clamped fallback candidate. -/
def cand_window (col_h N min_cell search_win : ℕ) (step : ℚ) (i : ℕ) : ℕ × ℕ :=
  let remaining := N - i
  let y_expect := y_expect_at step i
  let lo1 := max min_cell (y_expect - search_win)
  let hi1 := min (col_h - remaining * min_cell) (y_expect + search_win)
  let w2 : ℕ × ℕ :=
    if hi1 ≤ lo1 + 2 then
      (max min_cell (y_expect - 2), min (col_h - remaining * min_cell) (y_expect + 2))
    else (lo1, hi1)
  if w2.2 ≤ w2.1 then
    let lo3 := max min_cell (min y_expect (col_h - remaining * min_cell - 1))
    (lo3, lo3 + 1)
  else w2

/-- Candidate list `cand_y[i-1] = list(range(lo, hi))`. -/
def cand_ys (col_h N min_cell search_win : ℕ) (step : ℚ) (i : ℕ) : List ℕ :=
  let w := cand_window col_h N min_cell search_win step i
  List.range' w.1 (w.2 - w.1)

/-- Per-candidate cost `float(proj[y])/proj_max + dev_lambda * dev²` with
`dev = (y - y_expect)/max(1, step)` and `dev_lambda = 0.45` (line 1077), as a
total function of the in-range value (`proj.getD y 0 = proj[y]` for
`y < len proj`).  `float(proj[y])` itself raises `IndexError` when
`y ≥ len(proj)`; that reachable raise is modeled explicitly by
`bcost_checked` and `split_column_checked` below — the source evaluates the
costs of every candidate eagerly (lines 1071-1077) before any DP, so the
raise happens there and the later DP / fallback / assembly stages only ever
read in-range entries. -/
def bcost (proj : List ℚ) (proj_max step : ℚ) (y_expect : ℕ) (y : ℕ) : ℚ :=
  proj.getD y 0 / proj_max +
    (45/100) * (((y : ℚ) - (y_expect : ℚ)) / max 1 step) *
      (((y : ℚ) - (y_expect : ℚ)) / max 1 step)

/-- DP transition for one cell (lines 1098-1114): minimum over previous
candidates `k` with spacing `≥ min_cell`, with `size_lambda = 0.85`; returns
`(best, best_k)`, `(INFQ, -1)` when no transition is feasible.  The ℕ guard
`y - y_prev < min_cell` matches Python (both sides nonneg or Python negative
⇒ both branches skip since `min_cell ≥ 18 > 0`). -/
def dp_trans (prevYs : List ℕ) (prevDp : List ℚ) (min_cell : ℕ) (step : ℚ)
    (cst : ℚ) (y : ℕ) (acc : ℚ × ℤ) (k : ℕ) : ℚ × ℤ :=
  let y_prev := prevYs.getD k 0
  if y - y_prev < min_cell then acc
  else
    let cell := ((y : ℚ) - (y_prev : ℚ)) / max 1 step
    let v := prevDp.getD k INFQ + cst + (85/100) * (cell - 1) * (cell - 1)
    if v < acc.1 then (v, (k : ℤ)) else acc

def dp_inner (prevYs : List ℕ) (prevDp : List ℚ) (min_cell : ℕ) (step : ℚ)
    (cst : ℚ) (y : ℕ) : ℚ × ℤ :=
  (List.range prevYs.length).foldl (dp_trans prevYs prevDp min_cell step cst y)
    (INFQ, -1)

/-- DP row 0 (lines 1092-1095): base cost plus first-cell size penalty,
pointer `-1`. -/
def dp_row0 (proj : List ℚ) (proj_max step : ℚ) (c0 : ℕ × List ℕ) : List (ℚ × ℤ) :=
  c0.2.map (fun (y : ℕ) =>
    let cell := (y : ℚ) / max 1 step
    (bcost proj proj_max step c0.1 y + (85/100) * (cell - 1) * (cell - 1), (-1 : ℤ)))

/-- One step of the DP row recurrence: state is (rows so far, previous
candidate list, previous dp values). -/
def dp_step_row (proj : List ℚ) (proj_max step : ℚ) (min_cell : ℕ)
    (st : List (List (ℚ × ℤ)) × List ℕ × List ℚ) (c : ℕ × List ℕ) :
    List (List (ℚ × ℤ)) × List ℕ × List ℚ :=
  let row := c.2.map (fun (y : ℕ) =>
    dp_inner st.2.1 st.2.2 min_cell step (bcost proj proj_max step c.1 y) y)
  (st.1 ++ [row], c.2, row.map Prod.fst)

/-- All DP rows `(dp[i][j], prev_idx[i][j])`; row 0 per lines 1092-1095,
further rows via `dp_inner`. -/
def dp_rows (proj : List ℚ) (proj_max step : ℚ) (min_cell : ℕ)
    (cands : List (ℕ × List ℕ)) : List (List (ℚ × ℤ)) :=
  match cands with
  | [] => []
  | c0 :: rest =>
    (rest.foldl (dp_step_row proj proj_max step min_cell)
      ([dp_row0 proj proj_max step c0], c0.2,
        (dp_row0 proj proj_max step c0).map Prod.fst)).1

/-- Python `min(range(len l), key=fun j => l[j])`: first index attaining the
minimum (empty list unreachable in the source: candidate lists are nonempty). -/
def argmin_first (l : List ℚ) : ℕ :=
  (List.range l.length).foldl (fun acc j => if l.getD j INFQ < l.getD acc INFQ then j else acc) 0

/-- Python list indexing with possible negative index (wrap-around), as read by
the backtrack from `prev_idx`. -/
def pyIdx (l : List (ℚ × ℤ)) (j : ℤ) : ℚ × ℤ :=
  if 0 ≤ j then l.getD j.toNat (INFQ, -1) else l.getD (l.length - j.natAbs) (INFQ, -1)

/-- Backtrack `chosen[i-1] = prev_idx[i][chosen[i]]` (lines 1149-1152),
returning `[chosen 0, …, chosen (K-1)]` for `i` starting at `K-1`. -/
def backtrack_walk (rows : List (List (ℚ × ℤ))) : ℕ → ℤ → List ℤ
  | 0, j => [j]
  | i + 1, j =>
    let jp := (pyIdx (rows.getD (i + 1) []) j).2
    backtrack_walk rows i jp ++ [j]

/-- Forward assembly of boundaries from `chosen` (lines 1153-1158), including
the defensive `j < 0` monotone patch. -/
def assemble_chosen (cands : List (ℕ × List ℕ)) (min_cell col_h : ℕ)
    (chosen : List ℤ) : List ℕ :=
  (chosen.foldl
    (fun (st : List ℕ × ℕ) j =>
      let ys := (cands.getD st.2 (0, [])).2
      let y : ℕ := if j < 0 then min (st.1.getLastD 0 + min_cell) (col_h - 1)
                   else ys.getD j.toNat 0
      (st.1 ++ [y], st.2 + 1))
    ([0], 0)).1

/-- One greedy fallback step (lines 1126-1147) from previous boundary `cur`:
degenerate window ⇒ clamped expected position, else first cost-minimizing
position in `[a, b)` starting from the clamped expected initial value. -/
def greedy_step (proj : List ℚ) (proj_max step : ℚ) (min_cell search_win col_h N : ℕ)
    (cur : ℕ) (i : ℕ) : ℕ :=
  let remaining := N - i
  let y_expect := y_expect_at step i
  let low := cur + min_cell
  let high := col_h - remaining * min_cell
  if high ≤ low then max (cur + 1) (min y_expect (col_h - 1))
  else
    let a := max low (y_expect - search_win)
    let b := min high (y_expect + search_win)
    ((List.range' a (b - a)).foldl
      (fun (acc : ℕ × ℚ) y =>
        let cst := bcost proj proj_max step y_expect y
        if cst < acc.2 then (y, cst) else acc)
      (max low (min y_expect high), INFQ)).1

/-- The greedy fallback interior boundaries for `i = 1 … N-1`. -/
def greedy_boundaries (proj : List ℚ) (proj_max step : ℚ)
    (min_cell search_win col_h N : ℕ) : List ℕ :=
  ((List.range' 1 (N - 1)).foldl
    (fun (st : List ℕ × ℕ) i =>
      let y := greedy_step proj proj_max step min_cell search_win col_h N st.2 i
      (st.1 ++ [y], y))
    ([], 0)).1

/-- `min_cell = max(18, int(round(step * max(0.22, min_cell_ratio))))` (line 1042). -/
def min_cell_of (step : ℚ) (min_cell_ratio : ℚ) : ℕ :=
  max 18 (pyRound (step * max (22/100) min_cell_ratio)).toNat

/-- `step = height / expected_count` with `height = max(1, y_bottom - y_top)`
(lines 1037-1039, `y_top = 0`, `y_bottom = col_h`). -/
def col_step (G : Grid) (N : ℕ) : ℚ := ((max 1 G.h : ℕ) : ℚ) / (N : ℚ)

/-- The smoothed projection (lines 1021-1041): per-row ink counts over the
column slice, heavy rows zeroed, box-smoothed with the odd window
`max(9, round(step*0.18)|1)`. -/
def col_proj (G : Grid) (cx0 cx1 N : ℕ) : List ℚ :=
  let col_w := min cx1 G.w - cx0
  let row_sum0 : ℕ → ℕ := fun y => (List.range' cx0 col_w).countP (fun x => G.ink y x)
  let heavy : ℕ → Bool := fun y => decide ((col_w : ℚ) * (68/100) < (row_sum0 y : ℚ))
  let row_sum : ℕ → ℚ := fun y => if heavy y then 0 else (row_sum0 y : ℚ)
  let win := max 9 (pyOr1 (pyRound (col_step G N * (18/100))).toNat)
  smooth_1d ((List.range G.h).map row_sum) win

/-- `search_win = max(14, round(step * 0.60))` (line 1043). -/
def col_search_win (G : Grid) (N : ℕ) : ℕ :=
  max 14 (pyRound (col_step G N * (60/100))).toNat

/-- `proj_max = max(1.0, proj.max())` (line 1044). -/
def col_proj_max (G : Grid) (cx0 cx1 N : ℕ) : ℚ :=
  max 1 ((col_proj G cx0 cx1 N).foldr max 0)

/-- The candidate rows `(y_expect, cand_y)` for `i = 1 … N-1` (lines 1056-1090). -/
def col_cands (G : Grid) (N : ℕ) (min_cell_ratio : ℚ) : List (ℕ × List ℕ) :=
  (List.range' 1 (N - 1)).map
    (fun i => (y_expect_at (col_step G N) i,
      cand_ys G.h N (min_cell_of (col_step G N) min_cell_ratio) (col_search_win G N)
        (col_step G N) i))

/-- The DP table of the column splitter on its derived parameters. -/
def col_dp_rows (G : Grid) (cx0 cx1 N : ℕ) (min_cell_ratio : ℚ) :
    List (List (ℚ × ℤ)) :=
  dp_rows (col_proj G cx0 cx1 N) (col_proj_max G cx0 cx1 N) (col_step G N)
    (min_cell_of (col_step G N) min_cell_ratio) (col_cands G N min_cell_ratio)

/-- The boundary list produced by `split_column_into_chars` (lines 1005-1160):
`[]` when the column slice is empty, otherwise `N+1` positions
`0 = b₀, …, b_N = col_h` via the candidate DP with greedy fallback. -/
def split_column_boundaries (G : Grid) (cx0 cx1 : ℕ) (expected_count : ℕ)
    (min_cell_ratio : ℚ) : List ℕ :=
  let col_w := min cx1 G.w - cx0
  let col_h := G.h
  if col_h * col_w = 0 then [] else
  let step := col_step G expected_count
  let proj := col_proj G cx0 cx1 expected_count
  let min_cell := min_cell_of step min_cell_ratio
  let search_win := col_search_win G expected_count
  let proj_max := col_proj_max G cx0 cx1 expected_count
  let cands := col_cands G expected_count min_cell_ratio
  let rows := col_dp_rows G cx0 cx1 expected_count min_cell_ratio
  if rows.length = 0 then [0, col_h] else
  let lastRow := rows.getD (rows.length - 1) []
  let bj := argmin_first (lastRow.map Prod.fst)
  if INFQ / 2 ≤ (lastRow.map Prod.fst).getD bj INFQ then
    0 :: greedy_boundaries proj proj_max step min_cell search_win col_h expected_count
      ++ [col_h]
  else
    assemble_chosen cands min_cell col_h (backtrack_walk rows (rows.length - 1) (bj : ℤ))
      ++ [col_h]

/-- The cost evaluation of line 1077 with the source's indexing semantics:
`float(proj[y])` raises `IndexError` for `y ≥ len(proj)` (modeled as `none`);
in range the cost is the total `bcost`. -/
def bcost_checked (proj : List ℚ) (proj_max step : ℚ) (y_expect y : ℕ) : Option ℚ :=
  if y < proj.length then some (bcost proj proj_max step y_expect y) else none

/-- Partiality wrapper for `split_column_into_chars` (lines 1013-1015,
1071-1077): after the empty-slice early return, the candidate pass eagerly
evaluates `float(proj[y])` for every candidate of every interior boundary and
raises `IndexError` (`none`) as soon as some candidate lies at or beyond the
projection — reachable whenever the clamped last-resort window emits
`y = min_cell ≥ col_h`.  On success the boundaries are those of the total
model, whose out-of-range `getD` defaults are then never consulted. -/
def split_column_checked (G : Grid) (cx0 cx1 N : ℕ) (r : ℚ) : Option (List ℕ) :=
  if G.h * (min cx1 G.w - cx0) = 0 then some [] else
  if (col_cands G N r).all (fun c => c.2.all (fun y =>
      (bcost_checked (col_proj G cx0 cx1 N) (col_proj_max G cx0 cx1 N) (col_step G N)
        c.1 y).isSome))
  then some (split_column_boundaries G cx0 cx1 N r)
  else none

/-- `split_column_into_chars` cell construction (lines 1162-1169): pair up
consecutive boundaries, patching `cy1 ≤ cy0` to `min(col_h, cy0 + 1)`. -/
def split_column_into_chars (G : Grid) (cx0 cx1 : ℕ) (expected_count : ℕ)
    (min_cell_ratio : ℚ) : List CharBox :=
  let bs := split_column_boundaries G cx0 cx1 expected_count min_cell_ratio
  if bs = [] then [] else
  (List.range expected_count).map (fun i =>
    let cy0 := bs.getD i 0
    let cy1r := bs.getD (i + 1) 0
    let cy1 := if cy1r ≤ cy0 then min G.h (cy0 + 1) else cy1r
    CharBox.mk (cx0 : ℤ) (cy0 : ℤ) (cx1 : ℤ) (cy1 : ℤ))

/-! ## QAReportEngine near-duplicate pass
(`qa_char_crops.py::add_near_duplicate_mismatch_flags`, lines 505-575)

An entry carries the data the pass reads: file name, whether the file exists
in the dataset directory, its label, flags/suggestions/score, and the feature
vector `_feat_32x32(file)` — a deterministic function of the file bytes
(bit-identical files yield identical features). -/

/-- A QA report entry as read/mutated by the near-duplicate pass. -/
structure QAEntry where
  file : String
  present : Bool
  char : String
  flags : List String
  suggestions : List String
  score : ℚ
  feat : List ℚ
  deriving DecidableEq, Repr

/-- Dot product, i.e. one entry of `F @ F.T` for rows of the feature matrix. -/
def dotQ (a b : List ℚ) : ℚ := ((a.zip b).map (fun p => p.1 * p.2)).sum

/-- Similarity with the diagonal filled with `-1.0`. -/
def simAt (feats : List (List ℚ)) (i j : ℕ) : ℚ :=
  if i = j then -1 else dotQ (feats.getD i []) (feats.getD j [])

/-- `np.argmax`: first index attaining the maximum (0 on an empty list,
unreachable in the source). -/
def argmax_first (vals : List ℚ) : ℕ :=
  (List.range vals.length).foldl (fun acc j => if vals.getD acc 0 < vals.getD j 0 then j else acc) 0

/-- Appending the flag/suggestion/score mutation of lines 551-560 to one entry. -/
def flag_entry (e : QAEntry) : QAEntry :=
  { e with
    flags := if "near_duplicate_mismatch" ∈ e.flags then e.flags
             else e.flags ++ ["near_duplicate_mismatch"]
    suggestions := if "check_duplicate" ∈ e.suggestions then e.suggestions
                   else e.suggestions ++ ["check_duplicate"]
    score := e.score + 10 }

/-- The dummy produced by `r.get(...) or ...` defaults. -/
def dQA : QAEntry := ⟨"", false, "", [], [], 0, []⟩

/-- The `items` of `add_near_duplicate_mismatch_flags` (lines 509-517): indices
of the entries with a nonempty file name whose file exists in the dataset
directory. -/
def nd_items (entries : List QAEntry) : List ℕ :=
  (List.range entries.length).filter
    (fun t => decide ((entries.getD t dQA).file ≠ "") && (entries.getD t dQA).present)

/-- The stacked feature matrix `F` (line 525): one `_feat_32x32` row per item. -/
def nd_feats (entries : List QAEntry) : List (List ℚ) :=
  (nd_items entries).map (fun t => (entries.getD t dQA).feat)

/-- Python `tuple(sorted([a, b]))` on two strings. -/
def sortKey (a b : String) : String × String := if b < a then (b, a) else (a, b)

/-- The body of the `for i in range(sim.shape[0])` loop (lines 532-572), acting
on the state (entries, seen keys, flagged pairs). -/
def nd_step (feats : List (List ℚ)) (items : List ℕ) (L : ℕ) (sim_thr : ℚ)
    (st : List QAEntry × List (String × String) × List (ℚ × String × String)) (i : ℕ) :
    List QAEntry × List (String × String) × List (ℚ × String × String) :=
  let j := argmax_first ((List.range L).map (fun j2 => simAt feats i j2))
  let s := simAt feats i j
  if s < sim_thr then st else
  let ia := items.getD i 0
  let ib := items.getD j 0
  let a := st.1.getD ia dQA
  let b := st.1.getD ib dQA
  if a.char = "" ∨ b.char = "" ∨ a.char = b.char then st else
  let key := sortKey a.file b.file
  if key ∈ st.2.1 then st else
  let e1 := st.1.set ia (flag_entry (st.1.getD ia dQA))
  let e2 := e1.set ib (flag_entry (e1.getD ib dQA))
  (e2, st.2.1 ++ [key], st.2.2 ++ [(s, a.file, b.file)])

/-- `add_near_duplicate_mismatch_flags(entries, sim_thr)`: returns the updated
entries together with the flagged pairs `(sim, a_file, b_file)` sorted by
similarity (descending, stable).  Entries are addressed by index. -/
def add_near_duplicate_mismatch_flags (entries : List QAEntry) (sim_thr : ℚ) :
    List QAEntry × List (ℚ × String × String) :=
  let items := nd_items entries
  if items.length < 3 then (entries, []) else
  let feats := nd_feats entries
  let L := items.length
  let res := (List.range L).foldl (nd_step feats items L sim_thr) (entries, [], [])
  (res.1, res.2.2.mergeSort (fun p q => decide (q.1 ≤ p.1)))

/-- Three-entry dataset: entries 0 and 1 have identical unit features and
different labels; entry 2 is unrelated. -/
def wEntries : List QAEntry :=
  [⟨"a.png", true, "x", [], [], 0, [1]⟩,
   ⟨"b.png", true, "y", [], [], 0, [1]⟩,
   ⟨"c.png", true, "z", [], [], 0, [0]⟩]

/-- Two-entry dataset: two bit-identical glyphs (identical unit features,
similarity exactly 1) with different labels. -/
def cxEntries : List QAEntry :=
  [⟨"a.png", true, "x", [], [], 0, [1]⟩,
   ⟨"b.png", true, "y", [], [], 0, [1]⟩]

/-! ## SequenceAligner (`ml_align_sequence.py::main`, lines 105-226)

The DP over `(i, j)` with push relaxation in row-major order.  `match_cost`
abstracts `-log(scores[i])` (identically `0` when every confidence is `1.0`)
and `cls_pen` abstracts `cls_penalty(ids[i], text[j])` (identically `0` when
no classifier predictions are supplied), so no transcendental arithmetic is
needed; all other costs are exact decimals. -/

/-- The `Step` dataclass of the aligner. -/
structure AStep where
  op : String
  i : ℕ
  j : ℕ
  take : ℕ
  deriving DecidableEq, Repr

/-- The DP table and backtrack pointers. -/
structure AState where
  dp : ℕ → ℕ → ℚ
  prev : ℕ → ℕ → Option AStep

/-- Pointwise update of a two-argument table. -/
def upd2 {α : Type} (f : ℕ → ℕ → α) (a b : ℕ) (v : α) : ℕ → ℕ → α :=
  fun p q => if p = a ∧ q = b then v else f p q

/-- Relaxation of one cell `(i, j)` (lines 133-171): reads `cur = dp[i][j]`,
skips if `cur ≥ INF`, else pushes the four transitions. -/
def relaxCell (n m : ℕ) (match_cost : ℕ → ℚ) (cls_pen : ℕ → ℕ → ℚ)
    (skip_det_pen skip_char_pen match2_pen : ℚ) (st : AState) (i j : ℕ) : AState :=
  let cur := st.dp i j
  if INFQ ≤ cur then st else
  let st1 : AState :=
    if i < n then
      let v := cur + skip_det_pen + (1/4) * match_cost i
      if v < st.dp (i+1) j then
        ⟨upd2 st.dp (i+1) j v, upd2 st.prev (i+1) j (some ⟨"skip_det", i, j, 0⟩)⟩
      else st
    else st
  let st2 : AState :=
    if j < m then
      let v := cur + skip_char_pen
      if v < st1.dp i (j+1) then
        ⟨upd2 st1.dp i (j+1) v, upd2 st1.prev i (j+1) (some ⟨"skip_char", i, j, 0⟩)⟩
      else st1
    else st1
  let st3 : AState :=
    if i < n ∧ j < m then
      let v := cur + match_cost i + cls_pen i j
      if v < st2.dp (i+1) (j+1) then
        ⟨upd2 st2.dp (i+1) (j+1) v, upd2 st2.prev (i+1) (j+1) (some ⟨"match1", i, j, 1⟩)⟩
      else st2
    else st2
  if i < n ∧ j + 1 < m then
    let v := cur + match_cost i + match2_pen + cls_pen i j + cls_pen i (j+1)
    if v < st3.dp (i+1) (j+2) then
      ⟨upd2 st3.dp (i+1) (j+2) v, upd2 st3.prev (i+1) (j+2) (some ⟨"match2", i, j, 2⟩)⟩
    else st3
  else st3

/-- `dp[0][0] = 0.0`, everything else `INF`, no pointers. -/
def align_init : AState :=
  ⟨fun p q => if p = 0 ∧ q = 0 then 0 else INFQ, fun _ _ => none⟩

/-- Process one row `i` (the inner `for j in range(m+1)` loop). -/
def process_row (n m : ℕ) (match_cost : ℕ → ℚ) (cls_pen : ℕ → ℕ → ℚ)
    (a b c : ℚ) (st : AState) (i : ℕ) : AState :=
  (List.range (m + 1)).foldl (fun s j => relaxCell n m match_cost cls_pen a b c s i j) st

/-- The full DP fill (the outer `for i in range(n+1)` loop). -/
def process_all (n m : ℕ) (match_cost : ℕ → ℚ) (cls_pen : ℕ → ℕ → ℚ)
    (a b c : ℚ) : AState :=
  (List.range (n + 1)).foldl (process_row n m match_cost cls_pen a b c) align_init

/-- `best_j = min(range(m+1), key=lambda jj: dp[n][jj])` (first minimum). -/
def best_end_j (st : AState) (n m : ℕ) : ℕ :=
  (List.range (m + 1)).foldl (fun acc j => if st.dp n j < st.dp n acc then j else acc) 0

/-- The backtrack loop (lines 176-191), in forward order; `fuel` bounds the
walk (each stored pointer strictly decreases `i + j`, and `n + m + 1` steps
always suffice for the states reached from `process_all`). -/
def align_backtrack (st : AState) : ℕ → ℕ → ℕ → List AStep
  | 0, _, _ => []
  | fuel + 1, i, j =>
    if i = 0 ∧ j = 0 then [] else
    match st.prev i j with
    | none => []
    | some s => align_backtrack st fuel s.i s.j ++ [s]

/-- The aligner's step sequence for `n` detections and an `m`-char
transcription. -/
def align_steps (n m : ℕ) (match_cost : ℕ → ℚ) (cls_pen : ℕ → ℕ → ℚ)
    (a b c : ℚ) : List AStep :=
  let st := process_all n m match_cost cls_pen a b c
  align_backtrack st (n + m + 1) n (best_end_j st n m)

/-! ## Statement-level predicates and concrete instances -/

/-- Box containment: `b'` contains `b` (each side moved only outward). -/
def boxLE (b b2 : Box4) : Prop :=
  b2.x0 ≤ b.x0 ∧ b2.y0 ≤ b.y0 ∧ b.x1 ≤ b2.x1 ∧ b.y1 ≤ b2.y1

/-- A box lies (non-degenerately) inside the corridor
`[sx0, sx1] × [sy0, sy1]`. -/
def inCorridor (sx0 sx1 sy0 sy1 : ℕ) (b : Box4) : Prop :=
  sx0 ≤ b.x0 ∧ b.x0 + 1 < b.x1 ∧ b.x1 ≤ sx1 ∧
    sy0 ≤ b.y0 ∧ b.y0 + 1 < b.y1 ∧ b.y1 ≤ sy1

/-- Page with a two-row ink bar protruding above a cell: rows 19-20,
columns 10-29 of a 60×40 page. -/
def c1Grid : Grid :=
  ⟨60, 40, fun y x => decide ((y = 19 ∨ y = 20) ∧ 10 ≤ x ∧ x < 30)⟩

/-- Page on which expanding the crop leftwards uncovers a taller contact
frontier: a 2-wide glyph bar (cols 30-31), its ring contact column 29, a thin
bridge (cols 22-28, rows 19-20) and a tall strip at cols 21-22. -/
def c3Grid : Grid :=
  ⟨40, 60, fun y x =>
    decide ((30 ≤ x ∧ x ≤ 31 ∧ 12 ≤ y ∧ y ≤ 27) ∨ (x = 29 ∧ 12 ≤ y ∧ y ≤ 27) ∨
      (22 ≤ x ∧ x ≤ 28 ∧ 19 ≤ y ∧ y ≤ 20) ∨ (21 ≤ x ∧ x ≤ 22 ∧ 4 ≤ y ∧ y ≤ 35))⟩

/-- An all-background page. -/
def blankGrid : Grid := ⟨20, 20, fun _ _ => false⟩

/-- Invariant of the aligner's DP table in the identity case (`match_cost`
and `cls_pen` identically zero, positive penalties): the origin holds cost `0`
with no pointer, the diagonal cells in `e` are established at cost `0` with a
`match1` pointer, all other cells are strictly positive, and the whole table
is nonnegative. -/
def alignTab (e : ℕ → Prop) (st : AState) : Prop :=
  st.dp 0 0 = 0 ∧ st.prev 0 0 = none ∧
  (∀ k : ℕ, e k → st.dp k k = 0 ∧ st.prev k k = some ⟨"match1", k - 1, k - 1, 1⟩) ∧
  (∀ k : ℕ, ¬ e k → 1 ≤ k → 0 < st.dp k k) ∧
  (∀ p q : ℕ, p ≠ q → 0 < st.dp p q) ∧
  (∀ p q : ℕ, 0 ≤ st.dp p q)

/-! ## Theorems

Batteries marks `Rat.add/sub/mul/inv` `@[irreducible]`; they are made
semireducible locally so that `decide` can evaluate the model on concrete
inputs (this does not change any definition). -/

section
attribute [local semireducible] Rat.mul Rat.add Rat.inv Rat.sub

theorem pyRound_intCast (z : ℤ) : pyRound z = z := by
  unfold pyRound
  have h1 : ⌊(z : ℚ)⌋ = z := Int.floor_intCast z
  rw [h1]
  norm_num

theorem pyRound_nonneg {q : ℚ} (hq : 0 ≤ q) : 0 ≤ pyRound q := by
  have hz : (0:ℤ) ≤ ⌊q⌋ := Int.floor_nonneg.mpr hq
  unfold pyRound
  dsimp only
  split
  · exact hz
  · split
    · omega
    · split
      · exact hz
      · omega

theorem ink_mask_px_mono (r g b : ℤ) {t t' : ℤ} (h : t' < t)
    (hm : ink_mask_px r g b t' = true) : ink_mask_px r g b t = true := by
  unfold ink_mask_px at hm ⊢
  simp only [Bool.and_eq_true, decide_eq_true_eq, Bool.not_eq_true'] at hm ⊢
  refine ⟨lt_of_lt_of_le hm.1 ?_, hm.2⟩
  exact_mod_cast h.le

theorem qa_ink_mask_px_eq (r g b t : ℤ) : qa_ink_mask_px r g b t = ink_mask_px r g b t := rfl

/-- C7: InkMask monotonicity. For every RGB array and thresholds `t > t'`,
every pixel set in `mask(arr, t')` is set in `mask(arr, t)` (so
`mask(arr,t) ⊇ mask(arr,t')`), and the QA copy of `ink_mask` computes the
identical mask. -/
theorem ink_mask_monotone (arr : List (List (ℤ × ℤ × ℤ))) (t t' : ℤ) (h : t' < t) :
    (∀ i j, ((ink_mask arr t').getD i []).getD j false = true →
      ((ink_mask arr t).getD i []).getD j false = true) ∧
    (∀ s : ℤ, qa_ink_mask arr s = ink_mask arr s) := by
  constructor
  · intro i j hj
    unfold ink_mask at hj ⊢
    rcases hrow : arr[i]? with _ | row
    · simp only [List.getD_eq_getElem?_getD, List.getElem?_map, hrow, Option.map_none',
        Option.getD_none, List.getElem?_nil] at hj
      exact (Bool.false_ne_true hj).elim
    · simp only [List.getD_eq_getElem?_getD, List.getElem?_map, hrow, Option.map_some',
        Option.getD_some] at hj ⊢
      rcases hpix : row[j]? with _ | p
      · simp only [hpix, Option.map_none', Option.getD_none] at hj
        exact (Bool.false_ne_true hj).elim
      · simp only [hpix, Option.map_some', Option.getD_some] at hj ⊢
        exact ink_mask_px_mono _ _ _ h hj
  · intro s
    rfl

/-- Witness for `ink_mask_monotone` at a concrete raster and thresholds 100 > 50. -/
theorem ink_mask_monotone_witness :
    ((50 : ℤ) < 100) ∧
    ((∀ i j, ((ink_mask [[(10, 10, 10)]] 50).getD i []).getD j false = true →
        ((ink_mask [[(10, 10, 10)]] 100).getD i []).getD j false = true) ∧
      (∀ s : ℤ, qa_ink_mask [[(10, 10, 10)]] s = ink_mask [[(10, 10, 10)]] s)) :=
  ⟨by norm_num, ink_mask_monotone [[(10, 10, 10)]] 100 50 (by norm_num)⟩

/-! ### CropRefiner: monotonicity, corridor invariant (C10, C3, C1, part of C9) -/

theorem boxLE_refl (b : Box4) : boxLE b b :=
  ⟨le_refl _, le_refl _, le_refl _, le_refl _⟩

theorem boxLE_trans {a b c : Box4} (h1 : boxLE a b) (h2 : boxLE b c) : boxLE a c :=
  ⟨le_trans h2.1 h1.1, le_trans h2.2.1 h1.2.1, le_trans h1.2.2.1 h2.2.2.1,
    le_trans h1.2.2.2 h2.2.2.2⟩

theorem expand_loop_grows (G : Grid) (sx0 sx1 sy0 sy1 rp ac tr : ℕ) :
    ∀ (fuel : ℕ) (b : Box4), boxLE b (expand_loop G sx0 sx1 sy0 sy1 rp ac tr fuel b) := by
  intro fuel
  induction fuel with
  | zero => intro b; exact boxLE_refl b
  | succ n ih =>
    intro b
    rw [expand_loop]
    by_cases h1 : (contact_ring_ink_directional G b.x0 b.y0 b.x1 b.y1 rp (3/5)).total ≤ ac
    · simp only [h1, if_true]
      exact boxLE_refl b
    · simp only [h1, if_false]
      by_cases h2 : max (max (contact_ring_ink_directional G b.x0 b.y0 b.x1 b.y1 rp (3/5)).left
            (contact_ring_ink_directional G b.x0 b.y0 b.x1 b.y1 rp (3/5)).right)
          (max (contact_ring_ink_directional G b.x0 b.y0 b.x1 b.y1 rp (3/5)).top
            (contact_ring_ink_directional G b.x0 b.y0 b.x1 b.y1 rp (3/5)).bottom) < tr
      · simp only [h2, if_true]
        exact boxLE_refl b
      · simp only [h2, if_false]
        have key : ∀ v0 w0 v1 w1 : ℕ, v0 ≤ b.x0 → w0 ≤ b.y0 → b.x1 ≤ v1 → b.y1 ≤ w1 →
            boxLE b
              (if ((contact_ring_ink_directional G b.x0 b.y0 b.x1 b.y1 rp (3/5)).left < tr ∨
                    v0 = sx0) ∧
                  ((contact_ring_ink_directional G b.x0 b.y0 b.x1 b.y1 rp (3/5)).right < tr ∨
                    v1 = sx1) ∧
                  ((contact_ring_ink_directional G b.x0 b.y0 b.x1 b.y1 rp (3/5)).top < tr ∨
                    w0 = sy0) ∧
                  ((contact_ring_ink_directional G b.x0 b.y0 b.x1 b.y1 rp (3/5)).bottom < tr ∨
                    w1 = sy1)
                then ⟨v0, w0, v1, w1⟩
                else expand_loop G sx0 sx1 sy0 sy1 rp ac tr n ⟨v0, w0, v1, w1⟩) := by
          intro v0 w0 v1 w1 a1 a2 a3 a4
          have hb : boxLE b ⟨v0, w0, v1, w1⟩ := ⟨a1, a2, a3, a4⟩
          split
          · exact hb
          · exact boxLE_trans hb (ih _)
        apply key <;> split_ifs <;> omega

/-- C10: crop refinement only ever grows the box.  Every iteration of the
expansion loop only decreases `x0`, `y0` and increases `x1`, `y1`, and the
box returned by `expand_crop_box_by_contact` always contains the input box
clamped to the safe bounds. -/
theorem expand_crop_only_grows :
    (∀ (G : Grid) (sx0 sx1 sy0 sy1 rp ac tr fuel : ℕ) (b : Box4),
      boxLE b (expand_loop G sx0 sx1 sy0 sy1 rp ac tr fuel b)) ∧
    (∀ (G : Grid) (crop : Box4) (sx0 sx1 sy0 sy1 rp ac tr mi : ℕ),
      boxLE ⟨max sx0 crop.x0, max sy0 crop.y0, min sx1 crop.x1, min sy1 crop.y1⟩
        (expand_crop_box_by_contact G crop sx0 sx1 sy0 sy1 rp ac tr mi)) := by
  refine ⟨fun G sx0 sx1 sy0 sy1 rp ac tr fuel b => expand_loop_grows _ _ _ _ _ _ _ _ _ _,
    fun G crop sx0 sx1 sy0 sy1 rp ac tr mi => ?_⟩
  rw [expand_crop_box_by_contact]
  split
  · exact boxLE_refl _
  · exact expand_loop_grows _ _ _ _ _ _ _ _ _ _

theorem expand_loop_corridor (G : Grid) (sx0 sx1 sy0 sy1 rp ac tr : ℕ) :
    ∀ (fuel : ℕ) (b : Box4), inCorridor sx0 sx1 sy0 sy1 b →
      inCorridor sx0 sx1 sy0 sy1 (expand_loop G sx0 sx1 sy0 sy1 rp ac tr fuel b) := by
  intro fuel
  induction fuel with
  | zero => intro b hb; exact hb
  | succ n ih =>
    intro b hb
    rw [expand_loop]
    by_cases h1 : (contact_ring_ink_directional G b.x0 b.y0 b.x1 b.y1 rp (3/5)).total ≤ ac
    · simp only [h1, if_true]; exact hb
    · simp only [h1, if_false]
      by_cases h2 : max (max (contact_ring_ink_directional G b.x0 b.y0 b.x1 b.y1 rp (3/5)).left
            (contact_ring_ink_directional G b.x0 b.y0 b.x1 b.y1 rp (3/5)).right)
          (max (contact_ring_ink_directional G b.x0 b.y0 b.x1 b.y1 rp (3/5)).top
            (contact_ring_ink_directional G b.x0 b.y0 b.x1 b.y1 rp (3/5)).bottom) < tr
      · simp only [h2, if_true]; exact hb
      · simp only [h2, if_false]
        obtain ⟨c1, c2, c3, c4, c5, c6⟩ := hb
        have key : ∀ v0 w0 v1 w1 : ℕ,
            sx0 ≤ v0 → v0 ≤ b.x0 → sy0 ≤ w0 → w0 ≤ b.y0 →
            b.x1 ≤ v1 → v1 ≤ sx1 → b.y1 ≤ w1 → w1 ≤ sy1 →
            inCorridor sx0 sx1 sy0 sy1
              (if ((contact_ring_ink_directional G b.x0 b.y0 b.x1 b.y1 rp (3/5)).left < tr ∨
                    v0 = sx0) ∧
                  ((contact_ring_ink_directional G b.x0 b.y0 b.x1 b.y1 rp (3/5)).right < tr ∨
                    v1 = sx1) ∧
                  ((contact_ring_ink_directional G b.x0 b.y0 b.x1 b.y1 rp (3/5)).top < tr ∨
                    w0 = sy0) ∧
                  ((contact_ring_ink_directional G b.x0 b.y0 b.x1 b.y1 rp (3/5)).bottom < tr ∨
                    w1 = sy1)
                then ⟨v0, w0, v1, w1⟩
                else expand_loop G sx0 sx1 sy0 sy1 rp ac tr n ⟨v0, w0, v1, w1⟩) := by
          intro v0 w0 v1 w1 a1 a2 a3 a4 a5 a6 a7 a8
          have hb2 : inCorridor sx0 sx1 sy0 sy1 ⟨v0, w0, v1, w1⟩ :=
            ⟨a1, by dsimp only; omega, a6, a3, by dsimp only; omega, a8⟩
          split
          · exact hb2
          · exact ih _ hb2
        apply key <;> split_ifs <;> omega

/-- C3 (amended): across iterations the refinement loop is monotone in the
box — every iteration only moves the four sides outward — and it exits
returning the box unchanged as soon as the measured total contact is `≤
accept`; the total contact score itself is *not* non-increasing (see the
counterexample). -/
theorem expand_loop_monotone_and_accept_exit :
    ∀ (G : Grid) (sx0 sx1 sy0 sy1 rp ac tr fuel : ℕ) (b : Box4),
      boxLE b (expand_loop G sx0 sx1 sy0 sy1 rp ac tr fuel b) ∧
      ((contact_ring_ink_directional G b.x0 b.y0 b.x1 b.y1 rp (3/5)).total ≤ ac →
        expand_loop G sx0 sx1 sy0 sy1 rp ac tr (fuel + 1) b = b) := by
  intro G sx0 sx1 sy0 sy1 rp ac tr fuel b
  refine ⟨expand_loop_grows _ _ _ _ _ _ _ _ _ _, fun h => ?_⟩
  rw [expand_loop]
  simp only [h, if_true]

/-- Counterexample to C3 as stated: on `c3Grid`, from box `(30,10,50,30)` the
measured total contact is 16 (> accept 15, left ≥ trigger 12, so the loop
expands to `(22,10,50,30)`), and at the next iteration the measured total is
24 > 16: the total contact increased across iterations. -/
theorem contact_total_increases_counterexample :
    (contact_ring_ink_directional c3Grid 30 10 50 30 8 (3/5)).total = 16 ∧
    expand_loop c3Grid 5 55 2 38 8 15 12 1 ⟨30, 10, 50, 30⟩ = ⟨22, 10, 50, 30⟩ ∧
    (contact_ring_ink_directional c3Grid 22 10 50 30 8 (3/5)).total = 24 := by
  refine ⟨by decide, by decide, by decide⟩

/-- C1 (amended): the final pipeline refinement keeps the crop box inside the
cell's safe *column* corridor, but only inside the *soft-expanded* row
corridor `[rb.safe_y0 - soft_bleed_y, rb.safe_y1 + soft_bleed_y]` (clamped to
the page), at every iteration of the loop, provided the clamped initial box
is non-degenerate. -/
theorem final_crop_in_soft_corridor (G : Grid)
    (cb_sx0 cb_sx1 rb_sy0 rb_sy1 cell_h img_h : ℕ) (crop : Box4)
    (hx : max cb_sx0 crop.x0 + 1 < min cb_sx1 crop.x1)
    (hy : max (rb_sy0 - soft_bleed_y cell_h) crop.y0 + 1 <
      min (min img_h (rb_sy1 + soft_bleed_y cell_h)) crop.y1) :
    inCorridor cb_sx0 cb_sx1 (rb_sy0 - soft_bleed_y cell_h)
      (min img_h (rb_sy1 + soft_bleed_y cell_h))
      (refine_final_crop G cb_sx0 cb_sx1 rb_sy0 rb_sy1 cell_h img_h crop) ∧
    (∀ (fuel : ℕ) (b : Box4),
      inCorridor cb_sx0 cb_sx1 (rb_sy0 - soft_bleed_y cell_h)
        (min img_h (rb_sy1 + soft_bleed_y cell_h)) b →
      inCorridor cb_sx0 cb_sx1 (rb_sy0 - soft_bleed_y cell_h)
        (min img_h (rb_sy1 + soft_bleed_y cell_h))
        (expand_loop G cb_sx0 cb_sx1 (rb_sy0 - soft_bleed_y cell_h)
          (min img_h (rb_sy1 + soft_bleed_y cell_h)) 8 15 12 fuel b)) := by
  constructor
  · rw [refine_final_crop, expand_crop_box_by_contact]
    have hcl : inCorridor cb_sx0 cb_sx1 (rb_sy0 - soft_bleed_y cell_h)
        (min img_h (rb_sy1 + soft_bleed_y cell_h))
        ⟨max cb_sx0 crop.x0, max (rb_sy0 - soft_bleed_y cell_h) crop.y0,
          min cb_sx1 crop.x1, min (min img_h (rb_sy1 + soft_bleed_y cell_h)) crop.y1⟩ :=
      ⟨le_max_left _ _, hx, min_le_left _ _, le_max_left _ _, hy, min_le_left _ _⟩
    split
    · next hdeg => exact absurd hdeg (by omega)
    · exact expand_loop_corridor _ _ _ _ _ _ _ _ _ _ hcl
  · exact fun fuel b hb => expand_loop_corridor _ _ _ _ _ _ _ _ _ _ hb

/-- Witness for `final_crop_in_soft_corridor` on a blank page. -/
theorem final_crop_in_soft_corridor_witness :
    (max 0 (2:ℕ) + 1 < min 20 10) ∧
    (max (0 - soft_bleed_y 10) 2 + 1 < min (min 20 (20 + soft_bleed_y 10)) 10) ∧
    (inCorridor 0 20 (0 - soft_bleed_y 10) (min 20 (20 + soft_bleed_y 10))
      (refine_final_crop blankGrid 0 20 0 20 10 20 ⟨2, 2, 10, 10⟩) ∧
    (∀ (fuel : ℕ) (b : Box4),
      inCorridor 0 20 (0 - soft_bleed_y 10) (min 20 (20 + soft_bleed_y 10)) b →
      inCorridor 0 20 (0 - soft_bleed_y 10) (min 20 (20 + soft_bleed_y 10))
        (expand_loop blankGrid 0 20 (0 - soft_bleed_y 10)
          (min 20 (20 + soft_bleed_y 10)) 8 15 12 fuel b))) :=
  ⟨by decide, by decide,
    final_crop_in_soft_corridor blankGrid 0 20 0 20 10 20 ⟨2, 2, 10, 10⟩
      (by decide) (by decide)⟩

/-- Counterexample to C1 as stated: on `c1Grid` with cell safe row corridor
starting at `rb.safe_y0 = 20` (cell height 48, so `soft_bleed_y = 12`), the
final refinement returns a crop box with `y0 = 8 < 20`: the final CropBox
leaves its cell's safe row corridor through the soft bleed. -/
theorem final_crop_leaves_row_corridor_counterexample :
    (refine_final_crop c1Grid 5 35 20 45 48 60 ⟨10, 20, 30, 40⟩).y0 = 8 ∧
    (refine_final_crop c1Grid 5 35 20 45 48 60 ⟨10, 20, 30, 40⟩).y0 < 20 := by
  refine ⟨by decide, by decide⟩

/-! ### SafeCorridor geometry (C4, part of C9) -/

theorem pyRound_cases (q : ℚ) :
    pyRound q = ⌊q⌋ ∨ (pyRound q = ⌊q⌋ + 1 ∧ (⌊q⌋ : ℚ) < q) := by
  unfold pyRound
  dsimp only
  split_ifs with h1 h2 h3
  · exact Or.inl rfl
  · refine Or.inr ⟨rfl, ?_⟩
    have : (0 : ℚ) < q - ⌊q⌋ := lt_trans (by norm_num) h2
    linarith
  · exact Or.inl rfl
  · refine Or.inr ⟨rfl, ?_⟩
    have h4 : (1 : ℚ)/2 ≤ q - ⌊q⌋ := le_of_not_lt h1
    have : (0 : ℚ) < q - ⌊q⌋ := lt_of_lt_of_le (by norm_num) h4
    linarith

theorem le_pyRound {z : ℤ} {q : ℚ} (h : (z : ℚ) ≤ q) : z ≤ pyRound q := by
  have h1 : z ≤ ⌊q⌋ := Int.le_floor.mpr h
  rcases pyRound_cases q with h2 | ⟨h2, _⟩ <;> omega

theorem pyRound_le {z : ℤ} {q : ℚ} (h : q ≤ (z : ℚ)) : pyRound q ≤ z := by
  have h1 : ⌊q⌋ ≤ z := by
    calc ⌊q⌋ ≤ ⌊(z : ℚ)⌋ := Int.floor_le_floor h
    _ = z := Int.floor_intCast z
  rcases pyRound_cases q with h2 | ⟨h2, h3⟩
  · omega
  · have h4 : (⌊q⌋ : ℚ) < (z : ℚ) := lt_of_lt_of_le h3 h
    have h5 : ⌊q⌋ < z := by exact_mod_cast h4
    omega

theorem row_bleed_ge (cells : List CharBox) : 12 ≤ row_bleed cells := le_max_left _ _

theorem row_mid_ge (cells : List CharBox) (i : ℕ)
    (h : (cells.getD i ⟨0, 0, 0, 0⟩).y1 ≤ (cells.getD (i + 1) ⟨0, 0, 0, 0⟩).y0) :
    (cells.getD i ⟨0, 0, 0, 0⟩).y1 ≤ row_mid cells i := by
  apply le_pyRound
  have h2 : ((cells.getD i ⟨0, 0, 0, 0⟩).y1 : ℚ) ≤ ((cells.getD (i + 1) ⟨0, 0, 0, 0⟩).y0 : ℚ) := by
    exact_mod_cast h
  push_cast
  linarith

theorem row_mid_le (cells : List CharBox) (i : ℕ)
    (h : (cells.getD i ⟨0, 0, 0, 0⟩).y1 ≤ (cells.getD (i + 1) ⟨0, 0, 0, 0⟩).y0) :
    row_mid cells i ≤ (cells.getD (i + 1) ⟨0, 0, 0, 0⟩).y0 := by
  apply pyRound_le
  have h2 : ((cells.getD i ⟨0, 0, 0, 0⟩).y1 : ℚ) ≤ ((cells.getD (i + 1) ⟨0, 0, 0, 0⟩).y0 : ℚ) := by
    exact_mod_cast h
  push_cast
  linarith

theorem safe_row_raw_y0_le (cells : List CharBox) (img_h : ℤ) (i : ℕ) (hi : i < cells.length)
    (hin : ∀ k : ℕ, k < cells.length → 0 ≤ (cells.getD k ⟨0, 0, 0, 0⟩).y0 ∧
      (cells.getD k ⟨0, 0, 0, 0⟩).y0 ≤ (cells.getD k ⟨0, 0, 0, 0⟩).y1 ∧
      (cells.getD k ⟨0, 0, 0, 0⟩).y1 ≤ img_h)
    (hsort : ∀ k : ℕ, k + 1 < cells.length →
      (cells.getD k ⟨0, 0, 0, 0⟩).y1 ≤ (cells.getD (k + 1) ⟨0, 0, 0, 0⟩).y0) :
    max 0 (min (if i = 0 then 0 else row_mid cells (i - 1) - row_bleed cells) (img_h - 1)) ≤
      (cells.getD i ⟨0, 0, 0, 0⟩).y0 := by
  obtain ⟨hk0, hk1, hk2⟩ := hin i hi
  by_cases h0 : i = 0
  · subst h0
    rw [if_pos rfl]
    omega
  · simp only [if_neg h0]
    have hprev : i - 1 + 1 = i := by omega
    have hm : row_mid cells (i - 1) ≤ (cells.getD i ⟨0, 0, 0, 0⟩).y0 := by
      have h5 := row_mid_le cells (i - 1) (hsort (i - 1) (by omega))
      rwa [hprev] at h5
    have hb := row_bleed_ge cells
    omega

theorem safe_row_bounds_getD (cells : List CharBox) (img_h : ℤ) (i : ℕ)
    (hi : i < cells.length) :
    (compute_safe_row_bounds cells img_h).getD i ⟨⟨0, 0, 0, 0⟩, 0, 0⟩ =
      ⟨cells.getD i ⟨0, 0, 0, 0⟩,
        max 0 (min (if i = 0 then 0 else row_mid cells (i - 1) - row_bleed cells) (img_h - 1)),
        max (max 0 (min (if i = 0 then 0 else row_mid cells (i - 1) - row_bleed cells)
            (img_h - 1)) + 1)
          (min (if i = cells.length - 1 then img_h else row_mid cells i + row_bleed cells)
            img_h)⟩ := by
  unfold compute_safe_row_bounds
  rw [if_neg (by omega)]
  rw [List.getD_eq_getElem?_getD, List.getElem?_ofFn]
  simp [List.ofFnNthVal, hi]

theorem safe_col_bounds_getD (cols det0 : List ColumnBox) (W : ℤ) (i : ℕ)
    (hi : i < cols.length) :
    (compute_safe_column_bounds cols det0 W).getD i ⟨⟨0, 0⟩, 0, 0⟩ =
      (if min W (max (cols.getD i ⟨0, 0⟩).x1
            (col_mid_right (if det0.length ≠ cols.length then cols else det0) W i)) ≤
          max 0 (min (cols.getD i ⟨0, 0⟩).x0
            (col_mid_left (if det0.length ≠ cols.length then cols else det0) cols.length i)) + 1
        then ⟨cols.getD i ⟨0, 0⟩, max 0 (cols.getD i ⟨0, 0⟩).x0, min W (cols.getD i ⟨0, 0⟩).x1⟩
        else ⟨cols.getD i ⟨0, 0⟩,
          max 0 (min (cols.getD i ⟨0, 0⟩).x0
            (col_mid_left (if det0.length ≠ cols.length then cols else det0) cols.length i)),
          min W (max (cols.getD i ⟨0, 0⟩).x1
            (col_mid_right (if det0.length ≠ cols.length then cols else det0) W i))⟩) := by
  unfold compute_safe_column_bounds
  rw [if_neg (by omega)]
  rw [List.getD_eq_getElem?_getD, List.getElem?_ofFn]
  simp only [List.ofFnNthVal, hi, dif_pos, Option.getD_some]

/-- C4 (amended): CellBox ⊆ SafeCorridor holds on both axes; adjacent *column*
corridors share exactly the rounded midline of the detected neighbours (when
the midline lies between the columns, inside the page, and neither corridor
hits the degenerate fallback); but adjacent *row* corridors do NOT share just
the midline: they overlap in exactly the band
`[mid - bleed, mid + bleed]` of width `2*bleed` around the shared midline
(`bleed = clamp(round(0.12*step), 12, 28) ≥ 12`), whenever that band lies
inside the page. -/
theorem safe_corridor_edges
    (cells : List CharBox) (img_h : ℤ) (cols det0 : List ColumnBox) (W : ℤ) :
    (∀ i : ℕ, i < cells.length →
      (∀ k : ℕ, k < cells.length → 0 ≤ (cells.getD k ⟨0, 0, 0, 0⟩).y0 ∧
        (cells.getD k ⟨0, 0, 0, 0⟩).y0 ≤ (cells.getD k ⟨0, 0, 0, 0⟩).y1 ∧
        (cells.getD k ⟨0, 0, 0, 0⟩).y1 ≤ img_h) →
      (∀ k : ℕ, k + 1 < cells.length →
        (cells.getD k ⟨0, 0, 0, 0⟩).y1 ≤ (cells.getD (k + 1) ⟨0, 0, 0, 0⟩).y0) →
      ((compute_safe_row_bounds cells img_h).getD i ⟨⟨0, 0, 0, 0⟩, 0, 0⟩).cell =
          cells.getD i ⟨0, 0, 0, 0⟩ ∧
        ((compute_safe_row_bounds cells img_h).getD i ⟨⟨0, 0, 0, 0⟩, 0, 0⟩).safe_y0 ≤
          (cells.getD i ⟨0, 0, 0, 0⟩).y0 ∧
        (cells.getD i ⟨0, 0, 0, 0⟩).y1 ≤
          ((compute_safe_row_bounds cells img_h).getD i ⟨⟨0, 0, 0, 0⟩, 0, 0⟩).safe_y1) ∧
    (∀ i : ℕ, i + 1 < cells.length →
      (∀ k : ℕ, k < cells.length → 0 ≤ (cells.getD k ⟨0, 0, 0, 0⟩).y0 ∧
        (cells.getD k ⟨0, 0, 0, 0⟩).y0 ≤ (cells.getD k ⟨0, 0, 0, 0⟩).y1 ∧
        (cells.getD k ⟨0, 0, 0, 0⟩).y1 ≤ img_h) →
      (∀ k : ℕ, k + 1 < cells.length →
        (cells.getD k ⟨0, 0, 0, 0⟩).y1 ≤ (cells.getD (k + 1) ⟨0, 0, 0, 0⟩).y0) →
      0 ≤ row_mid cells i - row_bleed cells →
      row_mid cells i + row_bleed cells ≤ img_h →
      ((compute_safe_row_bounds cells img_h).getD i ⟨⟨0, 0, 0, 0⟩, 0, 0⟩).safe_y1 =
          row_mid cells i + row_bleed cells ∧
        ((compute_safe_row_bounds cells img_h).getD (i + 1) ⟨⟨0, 0, 0, 0⟩, 0, 0⟩).safe_y0 =
          row_mid cells i - row_bleed cells) ∧
    (∀ i : ℕ, i < cols.length → 0 ≤ (cols.getD i ⟨0, 0⟩).x0 →
      (cols.getD i ⟨0, 0⟩).x1 ≤ W →
      ((compute_safe_column_bounds cols det0 W).getD i ⟨⟨0, 0⟩, 0, 0⟩).col =
          cols.getD i ⟨0, 0⟩ ∧
        ((compute_safe_column_bounds cols det0 W).getD i ⟨⟨0, 0⟩, 0, 0⟩).safe_x0 ≤
          (cols.getD i ⟨0, 0⟩).x0 ∧
        (cols.getD i ⟨0, 0⟩).x1 ≤
          ((compute_safe_column_bounds cols det0 W).getD i ⟨⟨0, 0⟩, 0, 0⟩).safe_x1) ∧
    (∀ i : ℕ, 1 ≤ i → i < cols.length → det0.length = cols.length →
      (cols.getD i ⟨0, 0⟩).x1 ≤ col_mid_right det0 W i →
      col_mid_right det0 W i ≤ (cols.getD (i - 1) ⟨0, 0⟩).x0 →
      0 ≤ col_mid_right det0 W i → col_mid_right det0 W i ≤ W →
      ¬ (min W (max (cols.getD i ⟨0, 0⟩).x1 (col_mid_right det0 W i)) ≤
        max 0 (min (cols.getD i ⟨0, 0⟩).x0 (col_mid_left det0 cols.length i)) + 1) →
      ¬ (min W (max (cols.getD (i - 1) ⟨0, 0⟩).x1 (col_mid_right det0 W (i - 1))) ≤
        max 0 (min (cols.getD (i - 1) ⟨0, 0⟩).x0 (col_mid_left det0 cols.length (i - 1))) + 1) →
      ((compute_safe_column_bounds cols det0 W).getD i ⟨⟨0, 0⟩, 0, 0⟩).safe_x1 =
          col_mid_right det0 W i ∧
        ((compute_safe_column_bounds cols det0 W).getD (i - 1) ⟨⟨0, 0⟩, 0, 0⟩).safe_x0 =
          col_mid_right det0 W i) := by
  have hmidLR : ∀ i : ℕ, 1 ≤ i → i < cols.length →
      col_mid_left det0 cols.length (i - 1) = col_mid_right det0 W i := by
    intro i h1 h2
    unfold col_mid_left col_mid_right
    rw [if_neg (by omega), if_neg (by omega)]
    have : i - 1 + 1 = i := by omega
    rw [this]
  refine ⟨?_, ?_, ?_, ?_⟩
  · intro i hi hin hsort
    rw [safe_row_bounds_getD cells img_h i hi]
    obtain ⟨hk0, hk1, hk2⟩ := hin i hi
    have hy0 := safe_row_raw_y0_le cells img_h i hi hin hsort
    refine ⟨rfl, hy0, ?_⟩
    by_cases hL : i = cells.length - 1
    · simp only [if_pos hL]
      omega
    · simp only [if_neg hL]
      have hm : (cells.getD i ⟨0, 0, 0, 0⟩).y1 ≤ row_mid cells i :=
        row_mid_ge cells i (hsort i (by omega))
      have hb := row_bleed_ge cells
      omega
  · intro i hi hin hsort hc0 hc1
    have hb := row_bleed_ge cells
    obtain ⟨ha0, ha1, ha2⟩ := hin i (by omega)
    obtain ⟨hb0, hb1, hb2⟩ := hin (i + 1) hi
    have hmge : (cells.getD i ⟨0, 0, 0, 0⟩).y1 ≤ row_mid cells i :=
      row_mid_ge cells i (hsort i hi)
    have hmle : row_mid cells i ≤ (cells.getD (i + 1) ⟨0, 0, 0, 0⟩).y0 :=
      row_mid_le cells i (hsort i hi)
    constructor
    · rw [safe_row_bounds_getD cells img_h i (by omega)]
      have hy0 := safe_row_raw_y0_le cells img_h i (by omega) hin hsort
      simp only [if_neg (show ¬ i = cells.length - 1 by omega)]
      omega
    · rw [safe_row_bounds_getD cells img_h (i + 1) hi]
      simp only [if_neg (show ¬ i + 1 = 0 by omega), Nat.add_sub_cancel]
      omega
  · intro i hi hx0 hx1
    rw [safe_col_bounds_getD cols det0 W i hi]
    refine ⟨?_, ?_, ?_⟩
    · split <;> split <;> rfl
    · split <;> split <;> (dsimp only; omega)
    · split <;> split <;> (dsimp only; omega)
  · intro i h1 h2 hlen hmx1 hmx0 hm0 hmW hnd1 hnd2
    have hdet : (if det0.length ≠ cols.length then cols else det0) = det0 := by
      rw [if_neg (by omega)]
    constructor
    · rw [safe_col_bounds_getD cols det0 W i h2]
      rw [hdet] at *
      rw [if_neg hnd1]
      dsimp only
      omega
    · rw [safe_col_bounds_getD cols det0 W (i - 1) (by omega)]
      rw [hdet] at *
      rw [if_neg hnd2]
      dsimp only
      rw [hmidLR i h1 h2]
      omega

/-- Witness for `safe_corridor_edges` (the row-overlap conjunct) at two stacked
cells: the corridors end at `mid + bleed = 62` and begin at `mid - bleed = 38`. -/
theorem safe_corridor_edges_witness :
    ((0 : ℕ) + 1 < ([⟨0, 10, 40, 48⟩, ⟨0, 52, 40, 90⟩] : List CharBox).length) ∧
    (((compute_safe_row_bounds [⟨0, 10, 40, 48⟩, ⟨0, 52, 40, 90⟩] 120).getD 0
        ⟨⟨0, 0, 0, 0⟩, 0, 0⟩).safe_y1 =
      row_mid [⟨0, 10, 40, 48⟩, ⟨0, 52, 40, 90⟩] 0 + row_bleed [⟨0, 10, 40, 48⟩, ⟨0, 52, 40, 90⟩] ∧
    ((compute_safe_row_bounds [⟨0, 10, 40, 48⟩, ⟨0, 52, 40, 90⟩] 120).getD 1
        ⟨⟨0, 0, 0, 0⟩, 0, 0⟩).safe_y0 =
      row_mid [⟨0, 10, 40, 48⟩, ⟨0, 52, 40, 90⟩] 0 - row_bleed [⟨0, 10, 40, 48⟩, ⟨0, 52, 40, 90⟩]) :=
  ⟨by decide,
    (safe_corridor_edges [⟨0, 10, 40, 48⟩, ⟨0, 52, 40, 90⟩] 120 [] [] 0).2.1 0
      (by decide) (by decide)
      (by intro k hk; have hk0 : k = 0 := by simp at hk; omega
          subst hk0; decide)
      (by decide) (by decide)⟩

/-- Counterexample to C4 as stated: for two stacked cells split at `y = 50`
the adjacent row corridors do not share exactly the midline: the upper
corridor ends at 62 while the lower one begins at 38 — they overlap on the
24-pixel bleed band instead of meeting. -/
theorem row_corridors_overlap_counterexample :
    ((compute_safe_row_bounds [⟨0, 0, 50, 50⟩, ⟨0, 50, 50, 100⟩] 100).getD 0
        ⟨⟨0, 0, 0, 0⟩, 0, 0⟩).safe_y1 = 62 ∧
    ((compute_safe_row_bounds [⟨0, 0, 50, 50⟩, ⟨0, 50, 50, 100⟩] 100).getD 1
        ⟨⟨0, 0, 0, 0⟩, 0, 0⟩).safe_y0 = 38 ∧
    ((compute_safe_row_bounds [⟨0, 0, 50, 50⟩, ⟨0, 50, 50, 100⟩] 100).getD 1
        ⟨⟨0, 0, 0, 0⟩, 0, 0⟩).safe_y0 <
      ((compute_safe_row_bounds [⟨0, 0, 50, 50⟩, ⟨0, 50, 50, 100⟩] 100).getD 0
        ⟨⟨0, 0, 0, 0⟩, 0, 0⟩).safe_y1 := by
  refine ⟨by decide, by decide, by decide⟩

/-! ### DegenerateGeometry (C9) -/

/-- C9 (amended): the 1-pixel clamp is applied inconsistently and degenerate
geometry can even be fatal:
`compute_safe_row_bounds` always returns height ≥ 1; on the runs where the
splitter returns at all (`split_column_checked = some`, i.e. the eager
candidate-cost pass of lines 1071-1077 raises no `IndexError`), the cell
construction of `split_column_into_chars` guarantees height ≥ 1 whenever the
cell's lower boundary lies inside the column (`y0 < col_h`); and
`expand_crop_box_by_contact` returns the *unclamped* degenerate box (possibly
of non-positive width/height) when the clamped input is degenerate, rather
than clamping it to 1 pixel. -/
theorem degenerate_geometry_clamps :
    (∀ (cells : List CharBox) (img_h : ℤ) (rb : RowCropBounds),
      rb ∈ compute_safe_row_bounds cells img_h → rb.safe_y0 < rb.safe_y1) ∧
    (∀ (G : Grid) (cx0 cx1 N : ℕ) (r : ℚ) (bs : List ℕ) (cb : CharBox),
      split_column_checked G cx0 cx1 N r = some bs →
      cb ∈ split_column_into_chars G cx0 cx1 N r → cb.y0 < (G.h : ℤ) → cb.y0 < cb.y1) ∧
    (∀ (G : Grid) (crop : Box4) (sx0 sx1 sy0 sy1 rp ac tr mi : ℕ),
      min sx1 crop.x1 ≤ max sx0 crop.x0 + 1 ∨ min sy1 crop.y1 ≤ max sy0 crop.y0 + 1 →
      expand_crop_box_by_contact G crop sx0 sx1 sy0 sy1 rp ac tr mi =
        ⟨max sx0 crop.x0, max sy0 crop.y0, min sx1 crop.x1, min sy1 crop.y1⟩) := by
  refine ⟨?_, ?_, ?_⟩
  · intro cells img_h rb hmem
    unfold compute_safe_row_bounds at hmem
    by_cases hn : cells.length = 0
    · rw [if_pos hn] at hmem
      exact absurd hmem (List.not_mem_nil _)
    · rw [if_neg hn] at hmem
      rw [List.mem_ofFn] at hmem
      obtain ⟨i, hfi⟩ := hmem
      rw [← hfi]
      dsimp only
      have h1 := le_max_left
        (max 0 (min (if i.1 = 0 then 0
          else row_mid cells (i.1 - 1) - row_bleed cells) (img_h - 1)) + 1)
        (min (if i.1 = cells.length - 1 then img_h
          else row_mid cells i.1 + row_bleed cells) img_h)
      omega
  · intro G cx0 cx1 N r bs cb hchk hmem hlt
    unfold split_column_into_chars at hmem
    by_cases hb : split_column_boundaries G cx0 cx1 N r = []
    · rw [if_pos hb] at hmem
      exact absurd hmem (List.not_mem_nil _)
    · rw [if_neg hb] at hmem
      rw [List.mem_map] at hmem
      obtain ⟨i, _, heq⟩ := hmem
      rw [← heq] at hlt ⊢
      dsimp only at hlt ⊢
      split
      · next hle =>
        have hlt2 : (split_column_boundaries G cx0 cx1 N r).getD i 0 < G.h := by
          exact_mod_cast hlt
        have : (split_column_boundaries G cx0 cx1 N r).getD i 0 <
            min G.h ((split_column_boundaries G cx0 cx1 N r).getD i 0 + 1) := by
          omega
        exact_mod_cast this
      · next hgt =>
        have : (split_column_boundaries G cx0 cx1 N r).getD i 0 <
            (split_column_boundaries G cx0 cx1 N r).getD (i + 1) 0 := by omega
        exact_mod_cast this
  · intro G crop sx0 sx1 sy0 sy1 rp ac tr mi h
    unfold expand_crop_box_by_contact
    rw [if_pos h]

set_option maxRecDepth 100000 in
/-- Witness for `degenerate_geometry_clamps` (the safe-row-bounds conjunct and
the cell-clamp conjunct on a non-raising run of the splitter). -/
theorem degenerate_geometry_clamps_witness :
    (((⟨⟨0, 0, 50, 50⟩, 0, 100⟩ : RowCropBounds) ∈
        compute_safe_row_bounds [⟨0, 0, 50, 50⟩] 100) ∧
      ((⟨⟨0, 0, 50, 50⟩, 0, 100⟩ : RowCropBounds).safe_y0 <
        (⟨⟨0, 0, 50, 50⟩, 0, 100⟩ : RowCropBounds).safe_y1)) ∧
    (split_column_checked blankGrid 0 20 2 (3/10) = some [0, 18, 20] ∧
      (⟨0, 0, 20, 18⟩ : CharBox) ∈ split_column_into_chars blankGrid 0 20 2 (3/10) ∧
      (⟨0, 0, 20, 18⟩ : CharBox).y0 < (⟨0, 0, 20, 18⟩ : CharBox).y1) :=
  ⟨⟨by decide,
    degenerate_geometry_clamps.1 [⟨0, 0, 50, 50⟩] 100 ⟨⟨0, 0, 50, 50⟩, 0, 100⟩ (by decide)⟩,
   ⟨by decide, by decide,
    degenerate_geometry_clamps.2.1 blankGrid 0 20 2 (3/10) [0, 18, 20] ⟨0, 0, 20, 18⟩
      (by decide) (by decide) (by decide)⟩⟩

set_option maxRecDepth 100000 in
/-- Counterexample to C9 as stated: degenerate geometry is neither always
clamped nor always survivable.  A box entirely left of its safe corridor is
clamped to `x0 = 10, x1 = 5` and returned as-is by
`expand_crop_box_by_contact` — width less than 1, no 1-pixel clamp.  And on a
nonempty 15-pixel column split into 2 cells, `min_cell = 18 ≥ col_h`, so the
clamped last-resort window emits the candidate `y = 18` beyond the 15-entry
projection and the candidate-cost pass `float(proj[y])` raises `IndexError`
(`split_column_checked = none`) instead of clamping. -/
theorem degenerate_geometry_fatal_counterexample :
    (expand_crop_box_by_contact blankGrid ⟨0, 0, 5, 5⟩ 10 20 0 5 8 15 12 6 =
        ⟨10, 0, 5, 5⟩ ∧
      (expand_crop_box_by_contact blankGrid ⟨0, 0, 5, 5⟩ 10 20 0 5 8 15 12 6).x1 <
        (expand_crop_box_by_contact blankGrid ⟨0, 0, 5, 5⟩ 10 20 0 5 8 15 12 6).x0) ∧
    (split_column_checked ⟨15, 10, fun _ _ => false⟩ 0 10 2 (3/10) = none ∧
      min_cell_of (col_step ⟨15, 10, fun _ _ => false⟩ 2) (3/10) = 18 ∧
      (col_proj ⟨15, 10, fun _ _ => false⟩ 0 10 2).length = 15 ∧
      18 ∈ ((col_cands ⟨15, 10, fun _ _ => false⟩ 2 (3/10)).getD 0 (0, [])).2) := by
  decide

theorem bcost_checked_lt (proj : List ℚ) (pm step : ℚ) (a y : ℕ)
    (hy : y < proj.length) :
    bcost_checked proj pm step a y = some (bcost proj pm step a y) := by
  unfold bcost_checked
  rw [if_pos hy]

theorem split_column_checked_some_eq (G : Grid) (cx0 cx1 N : ℕ) (r : ℚ) (bs : List ℕ)
    (h : split_column_checked G cx0 cx1 N r = some bs) :
    bs = split_column_boundaries G cx0 cx1 N r := by
  unfold split_column_checked at h
  by_cases h0 : G.h * (min cx1 G.w - cx0) = 0
  · rw [if_pos h0] at h
    have hbs : bs = [] := (Option.some.inj h).symm
    subst hbs
    simp only [split_column_boundaries]
    rw [if_pos h0]
  · rw [if_neg h0] at h
    split at h
    · exact (Option.some.inj h).symm
    · exact Option.noConfusion h

/-! ### QAReportEngine near-duplicate pass (C5) -/

theorem range_split_at (n m : ℕ) : List.range (n + m) = List.range n ++ List.range' n m := by
  rw [List.range_eq_range', List.range_eq_range', Nat.add_comm n m]
  have h := (List.range'_append_1 0 n m).symm
  rwa [Nat.zero_add] at h

theorem flag_entry_char (e : QAEntry) : (flag_entry e).char = e.char := rfl

theorem flag_entry_file (e : QAEntry) : (flag_entry e).file = e.file := rfl

theorem flag_entry_mem (e : QAEntry) :
    "near_duplicate_mismatch" ∈ (flag_entry e).flags := by
  unfold flag_entry
  dsimp only
  split
  · assumption
  · exact List.mem_append_right _ (List.mem_singleton.mpr rfl)

theorem flag_entry_flags_mono (e : QAEntry) (fl : String) (h : fl ∈ e.flags) :
    fl ∈ (flag_entry e).flags := by
  unfold flag_entry
  dsimp only
  split
  · exact h
  · exact List.mem_append_left _ h

theorem getD_set_flagE (es : List QAEntry) (k idx : ℕ) :
    (es.set k (flag_entry (es.getD k dQA))).getD idx dQA =
      if k = idx ∧ k < es.length then flag_entry (es.getD k dQA) else es.getD idx dQA := by
  rw [List.getD_eq_getElem?_getD, List.getElem?_set]
  by_cases hk : k = idx
  · subst hk
    by_cases hlen : k < es.length
    · rw [if_pos rfl, if_pos hlen, if_pos ⟨rfl, hlen⟩, Option.getD_some]
    · rw [if_pos rfl, if_neg hlen, if_neg (by tauto), Option.getD_none]
      exact (List.getD_eq_default es dQA (by omega)).symm
  · rw [if_neg hk, if_neg (by tauto), ← List.getD_eq_getElem?_getD]

theorem set_flagE_facts (es : List QAEntry) (k : ℕ) :
    (es.set k (flag_entry (es.getD k dQA))).length = es.length ∧
    (∀ idx : ℕ, ((es.set k (flag_entry (es.getD k dQA))).getD idx dQA).char =
        (es.getD idx dQA).char ∧
      ((es.set k (flag_entry (es.getD k dQA))).getD idx dQA).file = (es.getD idx dQA).file) ∧
    (∀ (idx : ℕ) (fl : String), fl ∈ (es.getD idx dQA).flags →
      fl ∈ ((es.set k (flag_entry (es.getD k dQA))).getD idx dQA).flags) := by
  refine ⟨by simp, ?_, ?_⟩
  · intro idx
    rw [getD_set_flagE]
    split
    · next h =>
      obtain ⟨hk, _⟩ := h
      subst hk
      exact ⟨flag_entry_char _, flag_entry_file _⟩
    · exact ⟨rfl, rfl⟩
  · intro idx fl h
    rw [getD_set_flagE]
    split
    · next h2 =>
      obtain ⟨hk, _⟩ := h2
      subst hk
      exact flag_entry_flags_mono _ _ h
    · exact h

theorem nd_step_entries_facts (feats : List (List ℚ)) (items : List ℕ) (L : ℕ) (thr : ℚ)
    (st : List QAEntry × List (String × String) × List (ℚ × String × String)) (i : ℕ) :
    (nd_step feats items L thr st i).1.length = st.1.length ∧
    (∀ idx : ℕ, ((nd_step feats items L thr st i).1.getD idx dQA).char =
        (st.1.getD idx dQA).char ∧
      ((nd_step feats items L thr st i).1.getD idx dQA).file = (st.1.getD idx dQA).file) ∧
    (∀ (idx : ℕ) (fl : String), fl ∈ (st.1.getD idx dQA).flags →
      fl ∈ ((nd_step feats items L thr st i).1.getD idx dQA).flags) := by
  simp only [nd_step]
  split
  · exact ⟨rfl, fun idx => ⟨rfl, rfl⟩, fun idx fl h => h⟩
  split
  · exact ⟨rfl, fun idx => ⟨rfl, rfl⟩, fun idx fl h => h⟩
  split
  · exact ⟨rfl, fun idx => ⟨rfl, rfl⟩, fun idx fl h => h⟩
  dsimp only
  obtain ⟨hl1, hcf1, hm1⟩ := set_flagE_facts st.1 (items.getD i 0)
  obtain ⟨hl2, hcf2, hm2⟩ := set_flagE_facts (st.1.set (items.getD i 0)
    (flag_entry (st.1.getD (items.getD i 0) dQA)))
    (items.getD (argmax_first ((List.range L).map (fun j2 => simAt feats i j2))) 0)
  refine ⟨by rw [hl2, hl1], ?_, ?_⟩
  · intro idx
    obtain ⟨hc2, hf2⟩ := hcf2 idx
    obtain ⟨hc1, hf1⟩ := hcf1 idx
    exact ⟨by rw [hc2, hc1], by rw [hf2, hf1]⟩
  · intro idx fl h
    exact hm2 idx fl (hm1 idx fl h)

theorem nd_step_seen_grows (feats : List (List ℚ)) (items : List ℕ) (L : ℕ) (thr : ℚ)
    (st : List QAEntry × List (String × String) × List (ℚ × String × String)) (i : ℕ) :
    (nd_step feats items L thr st i).2.1 = st.2.1 ∨
    (nd_step feats items L thr st i).2.1 =
      st.2.1 ++ [sortKey (st.1.getD (items.getD i 0) dQA).file
        (st.1.getD (items.getD (argmax_first
          ((List.range L).map (fun j2 => simAt feats i j2))) 0) dQA).file] := by
  simp only [nd_step]
  split
  · exact Or.inl rfl
  split
  · exact Or.inl rfl
  split
  · exact Or.inl rfl
  exact Or.inr rfl

theorem argmax_first_foldl (vals : List ℚ) (o : ℕ) :
    ∀ (l : List ℕ) (acc : ℕ),
      (∀ j ∈ l, j ≠ o → vals.getD j 0 < vals.getD o 0) →
      (acc = o ∨ vals.getD acc 0 < vals.getD o 0) →
      (o ∈ l ∨ acc = o) →
      l.foldl (fun acc j => if vals.getD acc 0 < vals.getD j 0 then j else acc) acc = o := by
  intro l
  induction l with
  | nil =>
    intro acc _ hacc ho
    rcases ho with ho | ho
    · exact absurd ho (List.not_mem_nil _)
    · exact ho
  | cons j l ih =>
    intro acc hl hacc ho
    simp only [List.foldl_cons]
    by_cases hj : j = o
    · subst hj
      rcases hacc with hacc | hacc
      · subst hacc
        apply ih
        · exact fun a ha => hl a (List.mem_cons_of_mem _ ha)
        · split
          · exact Or.inl rfl
          · exact Or.inl rfl
        · right
          split
          · rfl
          · rfl
      · rw [if_pos hacc]
        apply ih
        · exact fun a ha => hl a (List.mem_cons_of_mem _ ha)
        · exact Or.inl rfl
        · exact Or.inr rfl
    · have hjlt : vals.getD j 0 < vals.getD o 0 := hl j (List.mem_cons_self _ _) hj
      rcases hacc with hacc | hacc
      · subst hacc
        rw [if_neg (by exact not_lt.mpr (le_of_lt hjlt))]
        apply ih
        · exact fun a ha => hl a (List.mem_cons_of_mem _ ha)
        · exact Or.inl rfl
        · exact Or.inr rfl
      · have ho2 : o ∈ l := by
          rcases ho with ho | ho
          · rcases List.mem_cons.mp ho with h | h
            · exact absurd h.symm hj
            · exact h
          · subst ho
            exact absurd hacc (lt_irrefl _)
        apply ih
        · exact fun a ha => hl a (List.mem_cons_of_mem _ ha)
        · split
          · exact Or.inr hjlt
          · exact Or.inr hacc
        · exact Or.inl ho2
    
theorem argmax_first_eq (vals : List ℚ) (o : ℕ) (ho : o < vals.length)
    (hmax : ∀ j : ℕ, j < vals.length → j ≠ o → vals.getD j 0 < vals.getD o 0) :
    argmax_first vals = o := by
  unfold argmax_first
  apply argmax_first_foldl
  · exact fun j hj => hmax j (List.mem_range.mp hj)
  · by_cases h0 : 0 = o
    · exact Or.inl h0
    · exact Or.inr (hmax 0 (by omega) h0)
  · exact Or.inl (List.mem_range.mpr ho)

theorem sortKey_fst_or_snd (a b : String) : (sortKey a b).1 = a ∨ (sortKey a b).2 = a := by
  unfold sortKey
  split
  · exact Or.inr rfl
  · exact Or.inl rfl

theorem nd_items_getD_lt_length (entries : List QAEntry) (t : ℕ)
    (ht : t < (nd_items entries).length) :
    (nd_items entries).getD t 0 < entries.length := by
  have hmem : (nd_items entries).getD t 0 ∈ nd_items entries := by
    rw [List.getD_eq_getElem?_getD, List.getElem?_eq_getElem ht, Option.getD_some]
    exact List.getElem_mem ht
  exact List.mem_range.mp (List.mem_filter.mp hmem).1

theorem nd_items_getD_strict (entries : List QAEntry) (p q : ℕ) (hpq : p < q)
    (hq : q < (nd_items entries).length) :
    (nd_items entries).getD p 0 < (nd_items entries).getD q 0 := by
  have hp : p < (nd_items entries).length := lt_trans hpq hq
  have hpw : (nd_items entries).Pairwise (· < ·) :=
    List.Pairwise.filter _ (List.pairwise_lt_range _)
  rw [List.getD_eq_getElem?_getD, List.getElem?_eq_getElem hp, Option.getD_some,
    List.getD_eq_getElem?_getD, List.getElem?_eq_getElem hq, Option.getD_some]
  exact List.pairwise_iff_getElem.mp hpw p q hp hq hpq

theorem map_range_getD (f : ℕ → ℚ) (L j : ℕ) (hj : j < L) :
    ((List.range L).map f).getD j 0 = f j := by
  rw [List.getD_eq_getElem?_getD, List.getElem?_map, List.getElem?_range hj]
  rfl

theorem sortKey_cases (a b : String) : sortKey a b = (a, b) ∨ sortKey a b = (b, a) := by
  unfold sortKey
  split
  · exact Or.inr rfl
  · exact Or.inl rfl

theorem nd_fold_flags_mono (feats : List (List ℚ)) (items : List ℕ) (L : ℕ) (thr : ℚ) :
    ∀ (rows : List ℕ)
      (st : List QAEntry × List (String × String) × List (ℚ × String × String))
      (idx : ℕ) (fl : String), fl ∈ (st.1.getD idx dQA).flags →
      fl ∈ ((rows.foldl (nd_step feats items L thr) st).1.getD idx dQA).flags := by
  intro rows
  induction rows with
  | nil => exact fun st idx fl h => h
  | cons r rows ih =>
    intro st idx fl h
    rw [List.foldl_cons]
    exact ih _ idx fl ((nd_step_entries_facts feats items L thr st r).2.2 idx fl h)

theorem nd_fold_keeps (feats : List (List ℚ)) (items : List ℕ) (L : ℕ) (thr : ℚ)
    (entries : List QAEntry) (K : String × String) :
    ∀ (rows : List ℕ)
      (st : List QAEntry × List (String × String) × List (ℚ × String × String)),
      (∀ r ∈ rows, (entries.getD (items.getD r 0) dQA).file ≠ K.1 ∧
        (entries.getD (items.getD r 0) dQA).file ≠ K.2) →
      (∀ idx : ℕ, ((st.1.getD idx dQA).char = (entries.getD idx dQA).char ∧
        (st.1.getD idx dQA).file = (entries.getD idx dQA).file)) →
      K ∉ st.2.1 → st.1.length = entries.length →
      ((∀ idx : ℕ,
        (((rows.foldl (nd_step feats items L thr) st).1.getD idx dQA).char =
            (entries.getD idx dQA).char ∧
          ((rows.foldl (nd_step feats items L thr) st).1.getD idx dQA).file =
            (entries.getD idx dQA).file)) ∧
        K ∉ (rows.foldl (nd_step feats items L thr) st).2.1 ∧
        (rows.foldl (nd_step feats items L thr) st).1.length = entries.length) := by
  intro rows
  induction rows with
  | nil => exact fun st _ hcf hk hlen => ⟨hcf, hk, hlen⟩
  | cons r rows ih =>
    intro st hrows hcf hk hlen
    rw [List.foldl_cons]
    obtain ⟨hl1, hcf1, _⟩ := nd_step_entries_facts feats items L thr st r
    apply ih
    · exact fun a ha => hrows a (List.mem_cons_of_mem _ ha)
    · intro idx
      obtain ⟨hc, hf⟩ := hcf1 idx
      obtain ⟨hc0, hf0⟩ := hcf idx
      exact ⟨by rw [hc, hc0], by rw [hf, hf0]⟩
    · rcases nd_step_seen_grows feats items L thr st r with hg | hg
      · rw [hg]; exact hk
      · rw [hg]
        intro hmem
        rcases List.mem_append.mp hmem with h | h
        · exact hk h
        · have hKeq : K = sortKey (st.1.getD (items.getD r 0) dQA).file
              (st.1.getD (items.getD (argmax_first
                ((List.range L).map (fun j2 => simAt feats r j2))) 0) dQA).file :=
            List.mem_singleton.mp h
          have hfr := (hcf (items.getD r 0)).2
          have hr := hrows r (List.mem_cons_self _ _)
          rcases sortKey_cases (st.1.getD (items.getD r 0) dQA).file
              (st.1.getD (items.getD (argmax_first
                ((List.range L).map (fun j2 => simAt feats r j2))) 0) dQA).file with
            hc | hc
          · have hx : K.1 = (entries.getD (items.getD r 0) dQA).file := by
              rw [hKeq, hc, ← hfr]
            exact hr.1 hx.symm
          · have hx : K.2 = (entries.getD (items.getD r 0) dQA).file := by
              rw [hKeq, hc, ← hfr]
            exact hr.2 hx.symm
    · rw [hl1, hlen]

theorem nd_step_fires (feats : List (List ℚ)) (items : List ℕ) (L : ℕ) (thr : ℚ)
    (st : List QAEntry × List (String × String) × List (ℚ × String × String)) (i : ℕ)
    (hs : ¬ simAt feats i
      (argmax_first ((List.range L).map (fun j2 => simAt feats i j2))) < thr)
    (hchar : ¬ ((st.1.getD (items.getD i 0) dQA).char = "" ∨
      (st.1.getD (items.getD (argmax_first
        ((List.range L).map (fun j2 => simAt feats i j2))) 0) dQA).char = "" ∨
      (st.1.getD (items.getD i 0) dQA).char =
        (st.1.getD (items.getD (argmax_first
          ((List.range L).map (fun j2 => simAt feats i j2))) 0) dQA).char))
    (hkey : sortKey (st.1.getD (items.getD i 0) dQA).file
      (st.1.getD (items.getD (argmax_first
        ((List.range L).map (fun j2 => simAt feats i j2))) 0) dQA).file ∉ st.2.1)
    (hia : items.getD i 0 < st.1.length)
    (hib : items.getD (argmax_first ((List.range L).map (fun j2 => simAt feats i j2))) 0 <
      st.1.length)
    (hne : items.getD i 0 ≠
      items.getD (argmax_first ((List.range L).map (fun j2 => simAt feats i j2))) 0) :
    "near_duplicate_mismatch" ∈
      ((nd_step feats items L thr st i).1.getD (items.getD i 0) dQA).flags ∧
    "near_duplicate_mismatch" ∈
      ((nd_step feats items L thr st i).1.getD
        (items.getD (argmax_first ((List.range L).map (fun j2 => simAt feats i j2))) 0)
        dQA).flags := by
  simp only [nd_step]
  rw [if_neg hs, if_neg hchar, if_neg hkey]
  dsimp only
  constructor
  · rw [getD_set_flagE, if_neg (fun h => hne h.1.symm), getD_set_flagE,
      if_pos ⟨rfl, hia⟩]
    exact flag_entry_mem _
  · rw [getD_set_flagE, if_pos ⟨rfl, by rw [List.length_set]; exact hib⟩]
    exact flag_entry_mem _

/-- C5. Amended: the QA near-duplicate pass flags both of two bit-identical
glyphs with different labels, provided the dataset has at least three eligible
items (with fewer the pass returns the entries untouched), the two glyphs are
mutual strict best matches under the unit-normalised features, both labels are
nonempty, and the eligible file names are pairwise distinct. -/
theorem near_duplicate_flags_both (entries : List QAEntry) (thr : ℚ) (p q : ℕ)
    (hpq : p < q) (hq : q < (nd_items entries).length)
    (hL3 : 3 ≤ (nd_items entries).length) (hthr : thr ≤ 1)
    (hfeat : (nd_feats entries).getD p [] = (nd_feats entries).getD q [])
    (hunit : dotQ ((nd_feats entries).getD p []) ((nd_feats entries).getD p []) = 1)
    (hbest : ∀ j : ℕ, j < (nd_items entries).length → j ≠ p → j ≠ q →
      dotQ ((nd_feats entries).getD p []) ((nd_feats entries).getD j []) < 1)
    (hcharp : (entries.getD ((nd_items entries).getD p 0) dQA).char ≠ "")
    (hcharq : (entries.getD ((nd_items entries).getD q 0) dQA).char ≠ "")
    (hcharne : (entries.getD ((nd_items entries).getD p 0) dQA).char ≠
      (entries.getD ((nd_items entries).getD q 0) dQA).char)
    (hfiles : ∀ r : ℕ, r < (nd_items entries).length →
      ∀ s : ℕ, s < (nd_items entries).length → r ≠ s →
      (entries.getD ((nd_items entries).getD r 0) dQA).file ≠
        (entries.getD ((nd_items entries).getD s 0) dQA).file) :
    "near_duplicate_mismatch" ∈
      ((add_near_duplicate_mismatch_flags entries thr).1.getD
        ((nd_items entries).getD p 0) dQA).flags ∧
    "near_duplicate_mismatch" ∈
      ((add_near_duplicate_mismatch_flags entries thr).1.getD
        ((nd_items entries).getD q 0) dQA).flags := by
  have hp : p < (nd_items entries).length := lt_trans hpq hq
  have hsimq : simAt (nd_feats entries) p q = 1 := by
    unfold simAt
    rw [if_neg (by omega : ¬ p = q), ← hfeat]
    exact hunit
  have hargq : argmax_first ((List.range (nd_items entries).length).map
      (fun j2 => simAt (nd_feats entries) p j2)) = q := by
    apply argmax_first_eq
    · simpa using hq
    · intro j hj hjq
      have hjL : j < (nd_items entries).length := by simpa using hj
      rw [map_range_getD _ _ _ hjL, map_range_getD _ _ _ hq, hsimq]
      by_cases hjp : j = p
      · subst hjp
        unfold simAt
        rw [if_pos rfl]
        norm_num
      · unfold simAt
        rw [if_neg (fun h => hjp h.symm)]
        exact hbest j hjL hjp hjq
  simp only [add_near_duplicate_mismatch_flags]
  rw [if_neg (show ¬ (nd_items entries).length < 3 by omega)]
  dsimp only
  have hsplit := range_split_at p ((nd_items entries).length - p)
  rw [show p + ((nd_items entries).length - p) = (nd_items entries).length by omega]
    at hsplit
  rw [hsplit, List.foldl_append,
    show (nd_items entries).length - p = ((nd_items entries).length - p - 1) + 1 by omega,
    List.range'_succ, List.foldl_cons]
  have hprefix : ∀ r ∈ List.range p,
      (entries.getD ((nd_items entries).getD r 0) dQA).file ≠
        (sortKey (entries.getD ((nd_items entries).getD p 0) dQA).file
          (entries.getD ((nd_items entries).getD q 0) dQA).file).1 ∧
      (entries.getD ((nd_items entries).getD r 0) dQA).file ≠
        (sortKey (entries.getD ((nd_items entries).getD p 0) dQA).file
          (entries.getD ((nd_items entries).getD q 0) dQA).file).2 := by
    intro r hr
    have hrp : r < p := List.mem_range.mp hr
    have hrfp := hfiles r (by omega) p hp (by omega)
    have hrfq := hfiles r (by omega) q hq (by omega)
    rcases sortKey_cases (entries.getD ((nd_items entries).getD p 0) dQA).file
        (entries.getD ((nd_items entries).getD q 0) dQA).file with hc | hc
    · rw [hc]
      exact ⟨hrfp, hrfq⟩
    · rw [hc]
      exact ⟨hrfq, hrfp⟩
  obtain ⟨Hcf, HK, Hlen⟩ := nd_fold_keeps (nd_feats entries) (nd_items entries)
    (nd_items entries).length thr entries
    (sortKey (entries.getD ((nd_items entries).getD p 0) dQA).file
      (entries.getD ((nd_items entries).getD q 0) dQA).file)
    (List.range p) (entries, [], []) hprefix (fun idx => ⟨rfl, rfl⟩)
    (List.not_mem_nil _) rfl
  have hs : ¬ simAt (nd_feats entries) p
      (argmax_first ((List.range (nd_items entries).length).map
        (fun j2 => simAt (nd_feats entries) p j2))) < thr := by
    rw [hargq, hsimq]
    exact not_lt.mpr hthr
  have hchar : ¬ ((((List.range p).foldl
        (nd_step (nd_feats entries) (nd_items entries) (nd_items entries).length thr)
        (entries, [], [])).1.getD ((nd_items entries).getD p 0) dQA).char = "" ∨
      (((List.range p).foldl
        (nd_step (nd_feats entries) (nd_items entries) (nd_items entries).length thr)
        (entries, [], [])).1.getD ((nd_items entries).getD (argmax_first
          ((List.range (nd_items entries).length).map
            (fun j2 => simAt (nd_feats entries) p j2))) 0) dQA).char = "" ∨
      (((List.range p).foldl
        (nd_step (nd_feats entries) (nd_items entries) (nd_items entries).length thr)
        (entries, [], [])).1.getD ((nd_items entries).getD p 0) dQA).char =
      (((List.range p).foldl
        (nd_step (nd_feats entries) (nd_items entries) (nd_items entries).length thr)
        (entries, [], [])).1.getD ((nd_items entries).getD (argmax_first
          ((List.range (nd_items entries).length).map
            (fun j2 => simAt (nd_feats entries) p j2))) 0) dQA).char) := by
    rw [hargq]
    push_neg
    refine ⟨?_, ?_, ?_⟩
    · rw [(Hcf ((nd_items entries).getD p 0)).1]
      exact hcharp
    · rw [(Hcf ((nd_items entries).getD q 0)).1]
      exact hcharq
    · rw [(Hcf ((nd_items entries).getD p 0)).1, (Hcf ((nd_items entries).getD q 0)).1]
      exact hcharne
  have hkey : sortKey (((List.range p).foldl
        (nd_step (nd_feats entries) (nd_items entries) (nd_items entries).length thr)
        (entries, [], [])).1.getD ((nd_items entries).getD p 0) dQA).file
      (((List.range p).foldl
        (nd_step (nd_feats entries) (nd_items entries) (nd_items entries).length thr)
        (entries, [], [])).1.getD ((nd_items entries).getD (argmax_first
          ((List.range (nd_items entries).length).map
            (fun j2 => simAt (nd_feats entries) p j2))) 0) dQA).file ∉
      ((List.range p).foldl
        (nd_step (nd_feats entries) (nd_items entries) (nd_items entries).length thr)
        (entries, [], [])).2.1 := by
    rw [hargq, (Hcf ((nd_items entries).getD p 0)).2, (Hcf ((nd_items entries).getD q 0)).2]
    exact HK
  have hia : (nd_items entries).getD p 0 < ((List.range p).foldl
      (nd_step (nd_feats entries) (nd_items entries) (nd_items entries).length thr)
      (entries, [], [])).1.length := by
    rw [Hlen]
    exact nd_items_getD_lt_length entries p hp
  have hib : (nd_items entries).getD (argmax_first
      ((List.range (nd_items entries).length).map
        (fun j2 => simAt (nd_feats entries) p j2))) 0 < ((List.range p).foldl
      (nd_step (nd_feats entries) (nd_items entries) (nd_items entries).length thr)
      (entries, [], [])).1.length := by
    rw [hargq, Hlen]
    exact nd_items_getD_lt_length entries q hq
  have hne : (nd_items entries).getD p 0 ≠ (nd_items entries).getD (argmax_first
      ((List.range (nd_items entries).length).map
        (fun j2 => simAt (nd_feats entries) p j2))) 0 := by
    rw [hargq]
    exact ne_of_lt (nd_items_getD_strict entries p q hpq hq)
  constructor
  · apply nd_fold_flags_mono
    exact (nd_step_fires (nd_feats entries) (nd_items entries) (nd_items entries).length
      thr _ p hs hchar hkey hia hib hne).1
  · apply nd_fold_flags_mono
    rw [← hargq]
    exact (nd_step_fires (nd_feats entries) (nd_items entries) (nd_items entries).length
      thr _ p hs hchar hkey hia hib hne).2

/-- Witness for `near_duplicate_flags_both`: three eligible entries, the first
two bit-identical with labels `x` and `y`; both end up flagged. -/
theorem near_duplicate_flags_both_witness :
    "near_duplicate_mismatch" ∈
      ((add_near_duplicate_mismatch_flags wEntries (985/1000)).1.getD
        ((nd_items wEntries).getD 0 0) dQA).flags ∧
    "near_duplicate_mismatch" ∈
      ((add_near_duplicate_mismatch_flags wEntries (985/1000)).1.getD
        ((nd_items wEntries).getD 1 0) dQA).flags :=
  near_duplicate_flags_both wEntries (985/1000) 0 1 (by decide) (by decide) (by decide)
    (by decide) (by decide) (by decide) (by decide) (by decide) (by decide) (by decide)
    (by decide)

/-- Counterexample to C5 as stated: a dataset of exactly the two bit-identical
glyphs (similarity `1.0`, labels `x` and `y`) has fewer than three eligible
items, so the pass returns the entries untouched and neither is flagged. -/
theorem near_duplicate_two_entries_counterexample :
    dotQ ((nd_feats cxEntries).getD 0 []) ((nd_feats cxEntries).getD 1 []) = 1 ∧
    (cxEntries.getD 0 dQA).char ≠ (cxEntries.getD 1 dQA).char ∧
    add_near_duplicate_mismatch_flags cxEntries (985/1000) = (cxEntries, []) ∧
    "near_duplicate_mismatch" ∉
      ((add_near_duplicate_mismatch_flags cxEntries (985/1000)).1.getD 0 dQA).flags ∧
    "near_duplicate_mismatch" ∉
      ((add_near_duplicate_mismatch_flags cxEntries (985/1000)).1.getD 1 dQA).flags := by
  decide

theorem alignTab_congr (e e2 : ℕ → Prop) (st : AState) (h : ∀ k, e k ↔ e2 k)
    (hQ : alignTab e st) : alignTab e2 st := by
  obtain ⟨h1, h2, h3, h4, h5, h6⟩ := hQ
  exact ⟨h1, h2, fun k hk => h3 k ((h k).mpr hk),
    fun k hk => h4 k (fun he => hk ((h k).mp he)), h5, h6⟩

theorem align_push_pos (e : ℕ → Prop) (st : AState) (ti tj : ℕ) (v : ℚ) (s : AStep)
    (hQ : alignTab e st) (hv : 0 < v) (hne : ¬(ti = 0 ∧ tj = 0)) :
    alignTab e (if v < st.dp ti tj then
      ⟨upd2 st.dp ti tj v, upd2 st.prev ti tj (some s)⟩ else st) := by
  obtain ⟨h1, h2, h3, h4, h5, h6⟩ := hQ
  split
  · next hguard =>
    refine ⟨?_, ?_, ?_, ?_, ?_, ?_⟩
    · dsimp only [upd2]
      rw [if_neg (fun h => hne ⟨h.1.symm, h.2.symm⟩)]
      exact h1
    · dsimp only [upd2]
      rw [if_neg (fun h => hne ⟨h.1.symm, h.2.symm⟩)]
      exact h2
    · intro k hk
      dsimp only [upd2]
      by_cases hkt : k = ti ∧ k = tj
      · exfalso
        have hz : st.dp ti tj = 0 := by
          rw [← hkt.1, ← hkt.2]
          exact (h3 k hk).1
        rw [hz] at hguard
        exact absurd hguard (not_lt.mpr (le_of_lt hv))
      · rw [if_neg hkt, if_neg hkt]
        exact h3 k hk
    · intro k hk hk1
      dsimp only [upd2]
      split
      · exact hv
      · exact h4 k hk hk1
    · intro p q hpq
      dsimp only [upd2]
      split
      · exact hv
      · exact h5 p q hpq
    · intro p q
      dsimp only [upd2]
      split
      · exact le_of_lt hv
      · exact h6 p q
  · exact ⟨h1, h2, h3, h4, h5, h6⟩

theorem align_push_guard (e : ℕ → Prop) (P : Prop) [Decidable P] (st : AState)
    (ti tj : ℕ) (v : ℚ) (s : AStep) (hQ : alignTab e st) (hv : 0 < v)
    (hne : ¬(ti = 0 ∧ tj = 0)) :
    alignTab e (if P then (if v < st.dp ti tj then
      ⟨upd2 st.dp ti tj v, upd2 st.prev ti tj (some s)⟩ else st) else st) := by
  split
  · exact align_push_pos e st ti tj v s hQ hv hne
  · exact hQ

theorem pushed_dp_ne (st : AState) (P : Prop) [Decidable P] (ti tj : ℕ) (v : ℚ)
    (s : AStep) (p q : ℕ) (h : ¬(p = ti ∧ q = tj)) :
    (if P then (if v < st.dp ti tj then
        ⟨upd2 st.dp ti tj v, upd2 st.prev ti tj (some s)⟩ else st) else st).dp p q =
      st.dp p q := by
  split
  · split
    · dsimp only [upd2]
      rw [if_neg h]
    · rfl
  · rfl

theorem relaxCell_alignTab (e : ℕ → Prop) (n m : ℕ) (a b c : ℚ)
    (ha : 0 < a) (hb : 0 < b) (hc : 0 < c) (st : AState) (i j : ℕ)
    (hQ : alignTab e st) (hcur : 0 < st.dp i j) :
    alignTab e (relaxCell n m (fun _ => 0) (fun _ _ => 0) a b c st i j) := by
  have h14 : (1/4 : ℚ) * 0 = 0 := mul_zero _
  simp only [relaxCell]
  by_cases h0 : INFQ ≤ st.dp i j
  · rw [if_pos h0]
    exact hQ
  rw [if_neg h0]
  apply align_push_guard
  · apply align_push_guard
    · apply align_push_guard
      · apply align_push_guard
        · exact hQ
        · linarith
        · omega
      · linarith
      · omega
    · linarith
    · omega
  · linarith
  · omega

theorem relaxCell_last (n m : ℕ) (mc : ℕ → ℚ) (cp : ℕ → ℕ → ℚ) (a b c : ℚ)
    (st : AState) (i j : ℕ) (hi : ¬ i < n) (hj : ¬ j < m) :
    relaxCell n m mc cp a b c st i j = st := by
  simp only [relaxCell]
  rw [if_neg hi, if_neg hj, if_neg (show ¬(i < n ∧ j < m) from fun h => hi h.1),
    if_neg (show ¬(i < n ∧ j + 1 < m) from fun h => hi h.1)]
  split
  · rfl
  · rfl

theorem align_establish (e : ℕ → Prop) (st : AState) (i : ℕ) (v : ℚ)
    (hQ : alignTab e st) (hv : v = 0) :
    alignTab (fun k => e k ∨ k = i + 1)
      ⟨upd2 st.dp (i + 1) (i + 1) v,
        upd2 st.prev (i + 1) (i + 1) (some ⟨"match1", i, i, 1⟩)⟩ := by
  obtain ⟨h1, h2, h3, h4, h5, h6⟩ := hQ
  refine ⟨?_, ?_, ?_, ?_, ?_, ?_⟩
  · dsimp only [upd2]
    rw [if_neg (by omega : ¬((0:ℕ) = i + 1 ∧ (0:ℕ) = i + 1))]
    exact h1
  · dsimp only [upd2]
    rw [if_neg (by omega : ¬((0:ℕ) = i + 1 ∧ (0:ℕ) = i + 1))]
    exact h2
  · intro k hk
    dsimp only [upd2]
    by_cases hki : k = i + 1
    · subst hki
      rw [if_pos ⟨rfl, rfl⟩, if_pos ⟨rfl, rfl⟩]
      exact ⟨hv, rfl⟩
    · rcases hk with hk | hk
      · rw [if_neg (fun hx => hki hx.1), if_neg (fun hx => hki hx.1)]
        exact h3 k hk
      · exact absurd hk hki
  · intro k hk hk1
    dsimp only [upd2]
    rw [if_neg (fun hx => hk (Or.inr hx.1))]
    exact h4 k (fun he => hk (Or.inl he)) hk1
  · intro p q hpq
    dsimp only [upd2]
    rw [if_neg (fun hx => hpq (hx.1.trans hx.2.symm))]
    exact h5 p q hpq
  · intro p q
    dsimp only [upd2]
    split
    · exact le_of_eq hv.symm
    · exact h6 p q

theorem align_estab_fire (e : ℕ → Prop) (st2 : AState) (i : ℕ) (v : ℚ)
    (hv : v = 0) (hpos : 0 < st2.dp (i + 1) (i + 1)) (hQ : alignTab e st2) :
    alignTab (fun k => e k ∨ k = i + 1)
      (if v < st2.dp (i + 1) (i + 1) then
        ⟨upd2 st2.dp (i + 1) (i + 1) v,
          upd2 st2.prev (i + 1) (i + 1) (some ⟨"match1", i, i, 1⟩)⟩
      else st2) := by
  rw [if_pos (by rw [hv]; exact hpos)]
  exact align_establish e st2 i v hQ hv

theorem relaxCell_diag (e : ℕ → Prop) (n m : ℕ) (a b c : ℚ)
    (ha : 0 < a) (hb : 0 < b) (hc : 0 < c) (st : AState) (i : ℕ)
    (hQ : alignTab e st) (hcur0 : st.dp i i = 0) (hnot : ¬ e (i + 1))
    (hin : i < n) (him : i < m) :
    alignTab (fun k => e k ∨ k = i + 1)
      (relaxCell n m (fun _ => 0) (fun _ _ => 0) a b c st i i) := by
  have h14 : (1/4 : ℚ) * 0 = 0 := mul_zero _
  have hpos1 : 0 < st.dp (i + 1) (i + 1) := hQ.2.2.2.1 (i + 1) hnot (by omega)
  have hINF : ¬ INFQ ≤ st.dp i i := by
    rw [hcur0]
    unfold INFQ
    norm_num
  simp only [relaxCell]
  rw [if_neg hINF]
  apply align_push_guard
  · rw [if_pos ⟨hin, him⟩]
    apply align_estab_fire
    · rw [hcur0]
      norm_num
    · rw [pushed_dp_ne _ _ _ _ _ _ _ _ (fun hx => Nat.succ_ne_self i hx.1),
        pushed_dp_ne _ _ _ _ _ _ _ _ (fun hx => Nat.succ_ne_self i hx.2)]
      exact hpos1
    · apply align_push_guard
      · apply align_push_guard
        · exact hQ
        · rw [hcur0]
          linarith
        · omega
      · rw [hcur0]
        linarith
      · omega
  · rw [hcur0]
    linarith
  · omega

theorem fold_relax_pres (e : ℕ → Prop) (n m : ℕ) (a b c : ℚ)
    (ha : 0 < a) (hb : 0 < b) (hc : 0 < c) (i : ℕ) :
    ∀ (js : List ℕ) (st : AState), alignTab e st → (∀ j ∈ js, j ≠ i) →
      alignTab e (js.foldl
        (fun s j => relaxCell n m (fun _ => 0) (fun _ _ => 0) a b c s i j) st) := by
  intro js
  induction js with
  | nil => exact fun st hQ _ => hQ
  | cons j js ih =>
    intro st hQ hmem
    rw [List.foldl_cons]
    apply ih
    · exact relaxCell_alignTab e n m a b c ha hb hc st i j hQ
        (hQ.2.2.2.2.1 i j (Ne.symm (hmem j (List.mem_cons_self _ _))))
    · exact fun j2 hj2 => hmem j2 (List.mem_cons_of_mem _ hj2)

theorem process_row_establishes (e : ℕ → Prop) (n m : ℕ) (a b c : ℚ)
    (ha : 0 < a) (hb : 0 < b) (hc : 0 < c) (st : AState) (i : ℕ)
    (hQ : alignTab e st) (hei : e i ∨ i = 0) (hnot : ¬ e (i + 1))
    (hin : i < n) (him : i < m) :
    alignTab (fun k => e k ∨ k = i + 1)
      (process_row n m (fun _ => 0) (fun _ _ => 0) a b c st i) := by
  unfold process_row
  have hsplit := range_split_at i (m + 1 - i)
  rw [show i + (m + 1 - i) = m + 1 by omega] at hsplit
  rw [hsplit, List.foldl_append,
    show m + 1 - i = (m - i) + 1 by omega, List.range'_succ, List.foldl_cons]
  apply fold_relax_pres _ n m a b c ha hb hc i (List.range' (i + 1) (m - i))
  · have hpre : alignTab e ((List.range i).foldl
        (fun s j => relaxCell n m (fun _ => 0) (fun _ _ => 0) a b c s i j) st) :=
      fold_relax_pres e n m a b c ha hb hc i (List.range i) st hQ
        (fun j hj => by have := List.mem_range.mp hj; omega)
    refine relaxCell_diag e n m a b c ha hb hc _ i hpre ?_ hnot hin him
    rcases hei with hei | hei
    · exact (hpre.2.2.1 i hei).1
    · subst hei
      exact hpre.1
  · intro j hj
    have := List.mem_range'_1.mp hj
    omega

theorem process_row_final (e : ℕ → Prop) (n : ℕ) (a b c : ℚ)
    (ha : 0 < a) (hb : 0 < b) (hc : 0 < c) (st : AState) (hQ : alignTab e st) :
    alignTab e (process_row n n (fun _ => 0) (fun _ _ => 0) a b c st n) := by
  unfold process_row
  rw [range_split_at n 1, List.foldl_append,
    show List.range' n 1 = [n] from rfl, List.foldl_cons, List.foldl_nil]
  rw [relaxCell_last n n _ _ a b c _ n n (lt_irrefl n) (lt_irrefl n)]
  exact fold_relax_pres e n n a b c ha hb hc n (List.range n) st hQ
    (fun j hj => by have := List.mem_range.mp hj; omega)

theorem process_rows_upto (n : ℕ) (a b c : ℚ) (ha : 0 < a) (hb : 0 < b) (hc : 0 < c) :
    ∀ i : ℕ, i ≤ n →
      alignTab (fun k => 1 ≤ k ∧ k ≤ i)
        ((List.range i).foldl (process_row n n (fun _ => 0) (fun _ _ => 0) a b c)
          align_init) := by
  intro i
  induction i with
  | zero =>
    intro _
    refine ⟨?_, rfl, ?_, ?_, ?_, ?_⟩
    · show (if (0:ℕ) = 0 ∧ (0:ℕ) = 0 then (0:ℚ) else INFQ) = 0
      rw [if_pos ⟨rfl, rfl⟩]
    · intro k hk
      exact absurd hk (by omega)
    · intro k hk hk1
      show 0 < (if k = 0 ∧ k = 0 then (0:ℚ) else INFQ)
      rw [if_neg (by omega : ¬(k = 0 ∧ k = 0))]
      unfold INFQ
      norm_num
    · intro p q hpq
      show 0 < (if p = 0 ∧ q = 0 then (0:ℚ) else INFQ)
      split
      · next h => exact absurd (h.1.trans h.2.symm) hpq
      · unfold INFQ
        norm_num
    · intro p q
      show 0 ≤ (if p = 0 ∧ q = 0 then (0:ℚ) else INFQ)
      split
      · exact le_refl 0
      · unfold INFQ
        norm_num
  | succ i ih =>
    intro hi1
    rw [range_split_at i 1, List.foldl_append,
      show List.range' i 1 = [i] from rfl, List.foldl_cons, List.foldl_nil]
    apply alignTab_congr (fun k => (1 ≤ k ∧ k ≤ i) ∨ k = i + 1)
    · intro k
      constructor
      · intro hk
        omega
      · intro hk
        omega
    · exact process_row_establishes _ n n a b c ha hb hc _ i (ih (by omega))
        (by omega) (by omega) (by omega) (by omega)

theorem process_all_table (n : ℕ) (a b c : ℚ) (ha : 0 < a) (hb : 0 < b) (hc : 0 < c) :
    alignTab (fun k => 1 ≤ k ∧ k ≤ n)
      (process_all n n (fun _ => 0) (fun _ _ => 0) a b c) := by
  unfold process_all
  rw [range_split_at n 1, List.foldl_append,
    show List.range' n 1 = [n] from rfl, List.foldl_cons, List.foldl_nil]
  exact process_row_final _ n a b c ha hb hc _
    (process_rows_upto n a b c ha hb hc n (le_refl n))

theorem foldl_min_mem (g : ℕ → ℚ) :
    ∀ (l : List ℕ) (acc : ℕ),
      l.foldl (fun acc j => if g j < g acc then j else acc) acc = acc ∨
      l.foldl (fun acc j => if g j < g acc then j else acc) acc ∈ l := by
  intro l
  induction l with
  | nil => exact fun acc => Or.inl rfl
  | cons j l ih =>
    intro acc
    rw [List.foldl_cons]
    rcases ih (if g j < g acc then j else acc) with h | h
    · rw [h]
      split
      · exact Or.inr (List.mem_cons_self _ _)
      · exact Or.inl rfl
    · exact Or.inr (List.mem_cons_of_mem _ h)

theorem best_end_j_eq (st : AState) (n : ℕ) (h0 : st.dp n n = 0)
    (hpos : ∀ j : ℕ, j ≠ n → 0 < st.dp n j) :
    best_end_j st n n = n := by
  unfold best_end_j
  rw [range_split_at n 1, List.foldl_append,
    show List.range' n 1 = [n] from rfl, List.foldl_cons, List.foldl_nil]
  rcases foldl_min_mem (st.dp n) (List.range n) 0 with hR | hR
  · rw [hR]
    by_cases hn0 : n = 0
    · subst hn0
      split
      · rfl
      · rfl
    · rw [h0, if_pos (hpos 0 (fun h => hn0 h.symm))]
  · have hRn : (List.range n).foldl
        (fun acc j => if st.dp n j < st.dp n acc then j else acc) 0 ≠ n := by
      have := List.mem_range.mp hR
      omega
    rw [h0, if_pos (hpos _ hRn)]

theorem align_backtrack_diag (st : AState) (n : ℕ)
    (hprev : ∀ k : ℕ, 1 ≤ k → k ≤ n →
      st.prev k k = some ⟨"match1", k - 1, k - 1, 1⟩) :
    ∀ (fuel k : ℕ), k ≤ n → k ≤ fuel →
      align_backtrack st fuel k k =
        (List.range k).map (fun t => (⟨"match1", t, t, 1⟩ : AStep)) := by
  intro fuel
  induction fuel with
  | zero =>
    intro k _ hkf
    have hk0 : k = 0 := by omega
    subst hk0
    rfl
  | succ fuel ih =>
    intro k hkn hkf
    by_cases hk0 : k = 0
    · subst hk0
      rfl
    · obtain ⟨k2, rfl⟩ : ∃ k2, k = k2 + 1 := ⟨k - 1, by omega⟩
      simp only [align_backtrack]
      rw [if_neg (by omega : ¬(k2 + 1 = 0 ∧ k2 + 1 = 0)),
        hprev (k2 + 1) (by omega) hkn]
      dsimp only
      simp only [Nat.add_sub_cancel]
      rw [ih k2 (by omega) (by omega), List.range_succ, List.map_append]
      rfl

/-- C6: identity case of the sequence aligner.  For `n ≥ 1` detections all
with confidence `1.0` (zero match cost), a transcription of the same length,
no classifier predictions (zero class penalty), and positive skip/match2
penalties, the alignment is exactly the `n` ordered `match1` operations
matching detection `k` to character `k`, with no `skip_det`, `skip_char` or
`match2` steps. -/
theorem align_identity (n : ℕ) (a b c : ℚ)
    (hn : 1 ≤ n) (ha : 0 < a) (hb : 0 < b) (hc : 0 < c) :
    align_steps n n (fun _ => 0) (fun _ _ => 0) a b c =
      (List.range n).map (fun k => (⟨"match1", k, k, 1⟩ : AStep)) := by
  obtain ⟨h1, h2, h3, h4, h5, h6⟩ := process_all_table n a b c ha hb hc
  have hdnn : (process_all n n (fun _ => 0) (fun _ _ => 0) a b c).dp n n = 0 :=
    (h3 n ⟨hn, le_refl n⟩).1
  have hbj : best_end_j (process_all n n (fun _ => 0) (fun _ _ => 0) a b c) n n = n := by
    apply best_end_j_eq _ n hdnn
    intro j hj
    exact h5 n j (fun h => hj h.symm)
  simp only [align_steps]
  rw [hbj]
  exact align_backtrack_diag _ n (fun k hk1 hkn => (h3 k ⟨hk1, hkn⟩).2) (n + n + 1) n
    (le_refl n) (by omega)

/-- Witness for `align_identity`: two detections, default penalties
`skip_det_pen = 6/5`, `skip_char_pen = 1`, `match2_pen = 9/20`. -/
theorem align_identity_witness :
    align_steps 2 2 (fun _ => 0) (fun _ _ => 0) (6/5) 1 (9/20) =
      (List.range 2).map (fun k => (⟨"match1", k, k, 1⟩ : AStep)) :=
  align_identity 2 (6/5) 1 (9/20) (by norm_num) (by norm_num) (by norm_num) (by norm_num)

theorem INFQ_pos : 0 < INFQ := by
  unfold INFQ
  norm_num

theorem INFQ_half_lt : INFQ / 2 < INFQ := by
  unfold INFQ
  norm_num

theorem getD_concat_self {α : Type} (l : List α) (a d : α) :
    (l ++ [a]).getD l.length d = a := by
  rw [List.getD_eq_getElem?_getD, List.getElem?_concat_length]
  rfl

theorem getD_concat_of_eq {α : Type} (l : List α) (a d : α) (k : ℕ)
    (h : k = l.length) : (l ++ [a]).getD k d = a := by
  subst h
  exact getD_concat_self l a d

theorem getD_append_lt {α : Type} (l l2 : List α) (k : ℕ) (d : α) (hk : k < l.length) :
    (l ++ l2).getD k d = l.getD k d := by
  rw [List.getD_eq_getElem?_getD, List.getElem?_append_left hk, ← List.getD_eq_getElem?_getD]

theorem getD_map_lt {α β : Type} (f : α → β) (l : List α) (j : ℕ) (d : β) (d2 : α)
    (hj : j < l.length) : (l.map f).getD j d = f (l.getD j d2) := by
  rw [List.getD_eq_getElem?_getD, List.getElem?_map, List.getElem?_eq_getElem hj,
    List.getD_eq_getElem?_getD, List.getElem?_eq_getElem hj]
  rfl

theorem getD_mem_of_lt {α : Type} (l : List α) (k : ℕ) (d : α) (hk : k < l.length) :
    l.getD k d ∈ l := by
  rw [List.getD_eq_getElem?_getD, List.getElem?_eq_getElem hk, Option.getD_some]
  exact List.getElem_mem hk

theorem getD_nonneg (l : List ℚ) (h : ∀ v ∈ l, 0 ≤ v) (k : ℕ) : 0 ≤ l.getD k 0 := by
  by_cases hk : k < l.length
  · exact h _ (getD_mem_of_lt l k 0 hk)
  · rw [List.getD_eq_default l 0 (by omega)]

theorem smooth_1d_nonneg (x : List ℚ) (win : ℕ) (hx : ∀ v ∈ x, 0 ≤ v) :
    ∀ v ∈ smooth_1d x win, 0 ≤ v := by
  simp only [smooth_1d]
  split
  · exact hx
  · intro v hv
    obtain ⟨i, hi, rfl⟩ := List.mem_map.mp hv
    apply div_nonneg
    · apply List.sum_nonneg
      intro a ha
      obtain ⟨j, hj, rfl⟩ := List.mem_map.mp ha
      split
      · exact le_refl 0
      · exact getD_nonneg x hx _
    · positivity

theorem col_proj_nonneg (G : Grid) (cx0 cx1 N : ℕ) :
    ∀ v ∈ col_proj G cx0 cx1 N, 0 ≤ v := by
  simp only [col_proj]
  apply smooth_1d_nonneg
  intro v hv
  obtain ⟨y, hy, rfl⟩ := List.mem_map.mp hv
  dsimp only
  split
  · exact le_refl 0
  · positivity

theorem col_proj_max_pos (G : Grid) (cx0 cx1 N : ℕ) : 0 < col_proj_max G cx0 cx1 N := by
  unfold col_proj_max
  have h := le_max_left (1 : ℚ) ((col_proj G cx0 cx1 N).foldr max 0)
  linarith

theorem bcost_nonneg (proj : List ℚ) (pm step : ℚ) (hproj : ∀ v ∈ proj, 0 ≤ v)
    (hpm : 0 < pm) (a y : ℕ) : 0 ≤ bcost proj pm step a y := by
  unfold bcost
  have h2 : 0 ≤ proj.getD y 0 / pm := div_nonneg (getD_nonneg proj hproj y) (le_of_lt hpm)
  nlinarith [mul_self_nonneg (((y : ℚ) - (a : ℚ)) / max 1 step)]

theorem cand_window_bounds (col_h N mc sw : ℕ) (step : ℚ) (i : ℕ) :
    mc ≤ (cand_window col_h N mc sw step i).1 ∧
    (cand_window col_h N mc sw step i).1 < (cand_window col_h N mc sw step i).2 ∧
    (cand_window col_h N mc sw step i).1 +
        ((cand_window col_h N mc sw step i).2 - (cand_window col_h N mc sw step i).1) ≤
      max mc (col_h - (N - i) * mc - 1) + 1 := by
  simp only [cand_window]
  split_ifs <;> dsimp only <;> omega

theorem cand_ys_mem_bounds (col_h N mc sw : ℕ) (step : ℚ) (i y : ℕ)
    (hy : y ∈ cand_ys col_h N mc sw step i) :
    mc ≤ y ∧ y ≤ max mc (col_h - (N - i) * mc - 1) := by
  obtain ⟨h1, h2, h3⟩ := cand_window_bounds col_h N mc sw step i
  simp only [cand_ys] at hy
  have hm := List.mem_range'_1.mp hy
  omega

theorem dp_trans_inv (prevYs : List ℕ) (prevDp : List ℚ) (mc : ℕ) (step cst : ℚ)
    (y : ℕ) (hmc : 0 < mc) (hcst : 0 ≤ cst) (acc : ℚ × ℤ) (k : ℕ)
    (hk : k < prevYs.length)
    (hacc : (acc.1 = INFQ ∧ acc.2 = -1) ∨
      ∃ k2 : ℕ, k2 < prevYs.length ∧ acc.2 = (k2 : ℤ) ∧
        prevYs.getD k2 0 + mc ≤ y ∧ prevDp.getD k2 INFQ ≤ acc.1) :
    ((dp_trans prevYs prevDp mc step cst y acc k).1 = INFQ ∧
      (dp_trans prevYs prevDp mc step cst y acc k).2 = -1) ∨
    ∃ k2 : ℕ, k2 < prevYs.length ∧
      (dp_trans prevYs prevDp mc step cst y acc k).2 = (k2 : ℤ) ∧
      prevYs.getD k2 0 + mc ≤ y ∧
      prevDp.getD k2 INFQ ≤ (dp_trans prevYs prevDp mc step cst y acc k).1 := by
  simp only [dp_trans]
  split
  · exact hacc
  · next hgap =>
    split
    · next hlt =>
      right
      refine ⟨k, hk, rfl, by omega, ?_⟩
      dsimp only
      nlinarith [mul_self_nonneg (((y : ℚ) - (prevYs.getD k 0 : ℚ)) / max 1 step - 1)]
    · exact hacc

theorem dp_inner_cases (prevYs : List ℕ) (prevDp : List ℚ) (mc : ℕ) (step cst : ℚ)
    (y : ℕ) (hmc : 0 < mc) (hcst : 0 ≤ cst) :
    ((dp_inner prevYs prevDp mc step cst y).1 = INFQ ∧
      (dp_inner prevYs prevDp mc step cst y).2 = -1) ∨
    ∃ k : ℕ, k < prevYs.length ∧ (dp_inner prevYs prevDp mc step cst y).2 = (k : ℤ) ∧
      prevYs.getD k 0 + mc ≤ y ∧
      prevDp.getD k INFQ ≤ (dp_inner prevYs prevDp mc step cst y).1 := by
  unfold dp_inner
  have main : ∀ (l : List ℕ) (acc : ℚ × ℤ),
      (∀ k ∈ l, k < prevYs.length) →
      ((acc.1 = INFQ ∧ acc.2 = -1) ∨
        ∃ k2 : ℕ, k2 < prevYs.length ∧ acc.2 = (k2 : ℤ) ∧
          prevYs.getD k2 0 + mc ≤ y ∧ prevDp.getD k2 INFQ ≤ acc.1) →
      (((l.foldl (dp_trans prevYs prevDp mc step cst y) acc).1 = INFQ ∧
        (l.foldl (dp_trans prevYs prevDp mc step cst y) acc).2 = -1) ∨
      ∃ k2 : ℕ, k2 < prevYs.length ∧
        (l.foldl (dp_trans prevYs prevDp mc step cst y) acc).2 = (k2 : ℤ) ∧
        prevYs.getD k2 0 + mc ≤ y ∧
        prevDp.getD k2 INFQ ≤ (l.foldl (dp_trans prevYs prevDp mc step cst y) acc).1) := by
    intro l
    induction l with
    | nil => exact fun acc _ hacc => hacc
    | cons k l ih =>
      intro acc hmem hacc
      rw [List.foldl_cons]
      exact ih _ (fun a ha => hmem a (List.mem_cons_of_mem _ ha))
        (dp_trans_inv prevYs prevDp mc step cst y hmc hcst acc k
          (hmem k (List.mem_cons_self _ _)) hacc)
  exact main (List.range prevYs.length) (INFQ, -1)
    (fun k hk => List.mem_range.mp hk) (Or.inl ⟨rfl, rfl⟩)

theorem dp_rows_cons (proj : List ℚ) (pm step : ℚ) (mc : ℕ) (c0 : ℕ × List ℕ)
    (rest : List (ℕ × List ℕ)) :
    dp_rows proj pm step mc (c0 :: rest) =
      (rest.foldl (dp_step_row proj pm step mc)
        ([dp_row0 proj pm step c0], c0.2,
          (dp_row0 proj pm step c0).map Prod.fst)).1 := rfl

theorem dp_fold_state (proj : List ℚ) (pm step : ℚ) (mc : ℕ) (c0 : ℕ × List ℕ) :
    ∀ rest : List (ℕ × List ℕ),
      (rest.foldl (dp_step_row proj pm step mc)
          ([dp_row0 proj pm step c0], c0.2,
            (dp_row0 proj pm step c0).map Prod.fst)).2.1 =
        ((c0 :: rest).getD rest.length (0, [])).2 ∧
      (rest.foldl (dp_step_row proj pm step mc)
          ([dp_row0 proj pm step c0], c0.2,
            (dp_row0 proj pm step c0).map Prod.fst)).2.2 =
        ((rest.foldl (dp_step_row proj pm step mc)
            ([dp_row0 proj pm step c0], c0.2,
              (dp_row0 proj pm step c0).map Prod.fst)).1.getD rest.length []).map
          Prod.fst ∧
      (rest.foldl (dp_step_row proj pm step mc)
          ([dp_row0 proj pm step c0], c0.2,
            (dp_row0 proj pm step c0).map Prod.fst)).1.length = rest.length + 1 := by
  intro rest
  induction rest using List.reverseRecOn with
  | nil => exact ⟨rfl, rfl, rfl⟩
  | append_singleton rest c ih =>
    obtain ⟨h1, h2, h3⟩ := ih
    rw [List.foldl_append, List.foldl_cons, List.foldl_nil]
    simp only [dp_step_row]
    refine ⟨?_, ?_, ?_⟩
    · rw [List.length_append, List.length_singleton]
      rw [show (c0 :: (rest ++ [c])) = (c0 :: rest) ++ [c] from rfl]
      rw [show rest.length + 1 = (c0 :: rest).length from rfl, getD_concat_self]
    · rw [List.length_append, List.length_singleton]
      rw [show rest.length + 1 = (rest.foldl (dp_step_row proj pm step mc)
          ([dp_row0 proj pm step c0], c0.2,
            (dp_row0 proj pm step c0).map Prod.fst)).1.length from h3.symm,
        getD_concat_self]
    · rw [List.length_append, List.length_append, List.length_singleton,
        List.length_singleton, h3]

theorem dp_rows_concat (proj : List ℚ) (pm step : ℚ) (mc : ℕ) (c0 : ℕ × List ℕ)
    (rest : List (ℕ × List ℕ)) (c : ℕ × List ℕ) :
    dp_rows proj pm step mc (c0 :: (rest ++ [c])) =
      dp_rows proj pm step mc (c0 :: rest) ++
        [c.2.map (fun y => dp_inner ((c0 :: rest).getD rest.length (0, [])).2
          (((dp_rows proj pm step mc (c0 :: rest)).getD rest.length []).map Prod.fst)
          mc step (bcost proj pm step c.1 y) y)] := by
  obtain ⟨h1, h2, _⟩ := dp_fold_state proj pm step mc c0 rest
  rw [dp_rows_cons, dp_rows_cons, List.foldl_append, List.foldl_cons, List.foldl_nil]
  simp only [dp_step_row]
  rw [h1, h2]

theorem dp_rows_length (proj : List ℚ) (pm step : ℚ) (mc : ℕ) (c0 : ℕ × List ℕ)
    (rest : List (ℕ × List ℕ)) :
    (dp_rows proj pm step mc (c0 :: rest)).length = rest.length + 1 := by
  rw [dp_rows_cons]
  exact (dp_fold_state proj pm step mc c0 rest).2.2

theorem backtrack_walk_append (rows : List (List (ℚ × ℤ))) (row : List (ℚ × ℤ)) :
    ∀ (i : ℕ) (j : ℤ), i < rows.length →
      backtrack_walk (rows ++ [row]) i j = backtrack_walk rows i j := by
  intro i
  induction i with
  | zero => exact fun j _ => rfl
  | succ i ih =>
    intro j hi
    simp only [backtrack_walk]
    rw [getD_append_lt _ _ _ _ hi, ih _ (by omega)]

theorem backtrack_walk_length (rows : List (List (ℚ × ℤ))) :
    ∀ (i : ℕ) (j : ℤ), (backtrack_walk rows i j).length = i + 1 := by
  intro i
  induction i with
  | zero => exact fun j => rfl
  | succ i ih =>
    intro j
    simp only [backtrack_walk]
    rw [List.length_append, ih]
    rfl

theorem assemble_fold_len (cands : List (ℕ × List ℕ)) (mc col_h : ℕ) :
    ∀ (chosen : List ℤ) (st : List ℕ × ℕ),
      (chosen.foldl
        (fun (st : List ℕ × ℕ) j =>
          let ys := (cands.getD st.2 (0, [])).2
          let y : ℕ := if j < 0 then min (st.1.getLastD 0 + mc) (col_h - 1)
                       else ys.getD j.toNat 0
          (st.1 ++ [y], st.2 + 1)) st).2 = st.2 + chosen.length := by
  intro chosen
  induction chosen with
  | nil => exact fun st => rfl
  | cons j chosen ih =>
    intro st
    rw [List.foldl_cons, ih]
    dsimp only
    rw [List.length_cons]
    omega

theorem assemble_chosen_concat (cands : List (ℕ × List ℕ)) (mc col_h : ℕ)
    (chosen : List ℤ) (j : ℤ) :
    assemble_chosen cands mc col_h (chosen ++ [j]) =
      assemble_chosen cands mc col_h chosen ++
        [if j < 0 then
          min ((assemble_chosen cands mc col_h chosen).getLastD 0 + mc) (col_h - 1)
         else ((cands.getD chosen.length (0, [])).2).getD j.toNat 0] := by
  unfold assemble_chosen
  rw [List.foldl_append, List.foldl_cons, List.foldl_nil]
  have hlen := assemble_fold_len cands mc col_h chosen ([0], 0)
  dsimp only
  rw [hlen]
  dsimp only
  rw [Nat.zero_add]

theorem assemble_chosen_cands_ext (cands : List (ℕ × List ℕ)) (c : ℕ × List ℕ)
    (mc col_h : ℕ) :
    ∀ chosen : List ℤ, chosen.length ≤ cands.length →
      assemble_chosen (cands ++ [c]) mc col_h chosen =
        assemble_chosen cands mc col_h chosen := by
  intro chosen
  induction chosen using List.reverseRecOn with
  | nil => exact fun _ => rfl
  | append_singleton chosen j ih =>
    intro hle
    rw [List.length_append, List.length_singleton] at hle
    rw [assemble_chosen_concat, assemble_chosen_concat, ih (by omega),
      getD_append_lt _ _ _ _ (by omega)]

theorem dp_backtrack_good (proj : List ℚ) (pm step : ℚ) (mc col_h : ℕ)
    (hmc : 0 < mc) (hb : ∀ a y : ℕ, 0 ≤ bcost proj pm step a y) :
    ∀ (rest : List (ℕ × List ℕ)) (c0 : ℕ × List ℕ),
      (∀ y ∈ c0.2, mc ≤ y) →
      ∀ j : ℕ,
        (((dp_rows proj pm step mc (c0 :: rest)).getD rest.length []).map
            Prod.fst).getD j INFQ < INFQ / 2 →
        j < ((c0 :: rest).getD rest.length (0, [])).2.length ∧
        (assemble_chosen (c0 :: rest) mc col_h
            (backtrack_walk (dp_rows proj pm step mc (c0 :: rest)) rest.length
              ((j : ℕ) : ℤ))).length = rest.length + 2 ∧
        (assemble_chosen (c0 :: rest) mc col_h
            (backtrack_walk (dp_rows proj pm step mc (c0 :: rest)) rest.length
              ((j : ℕ) : ℤ))).getD 0 0 = 0 ∧
        (assemble_chosen (c0 :: rest) mc col_h
            (backtrack_walk (dp_rows proj pm step mc (c0 :: rest)) rest.length
              ((j : ℕ) : ℤ))).getD (rest.length + 1) 0 =
          ((c0 :: rest).getD rest.length (0, [])).2.getD j 0 ∧
        ∀ t : ℕ, t + 1 < rest.length + 2 →
          (assemble_chosen (c0 :: rest) mc col_h
              (backtrack_walk (dp_rows proj pm step mc (c0 :: rest)) rest.length
                ((j : ℕ) : ℤ))).getD t 0 + mc ≤
            (assemble_chosen (c0 :: rest) mc col_h
                (backtrack_walk (dp_rows proj pm step mc (c0 :: rest)) rest.length
                  ((j : ℕ) : ℤ))).getD (t + 1) 0 := by
  intro rest
  induction rest using List.reverseRecOn with
  | nil =>
    intro c0 hc0 j hj
    simp only [List.length_nil] at hj ⊢
    have hj2 : ((dp_row0 proj pm step c0).map Prod.fst).getD j INFQ < INFQ / 2 := hj
    have hjlt : j < c0.2.length := by
      by_contra hge
      rw [List.getD_eq_default _ _ (by simp [dp_row0]; omega)] at hj2
      exact absurd hj2 (by have := INFQ_half_lt; linarith)
    have hB : assemble_chosen [c0] mc col_h
        (backtrack_walk (dp_rows proj pm step mc [c0]) 0 ((j : ℕ) : ℤ)) =
        [0, c0.2.getD j 0] := by
      show assemble_chosen [c0] mc col_h (([] : List ℤ) ++ [((j : ℕ) : ℤ)]) = _
      rw [assemble_chosen_concat, if_neg (not_lt.mpr (Int.natCast_nonneg j)),
        Int.toNat_natCast]
      rfl
    refine ⟨hjlt, ?_, ?_, ?_, ?_⟩
    · rw [hB]
      rfl
    · rw [hB]
      rfl
    · rw [hB]
      rfl
    · intro t ht
      have ht0 : t = 0 := by omega
      subst ht0
      rw [hB]
      have hmem := hc0 (c0.2.getD j 0) (getD_mem_of_lt c0.2 j 0 hjlt)
      show 0 + mc ≤ c0.2.getD j 0
      omega
  | append_singleton rest c ih =>
    intro c0 hc0 j hj
    have hRlen := dp_rows_length proj pm step mc c0 rest
    have hcat := dp_rows_concat proj pm step mc c0 rest c
    simp only [List.length_append, List.length_singleton] at hj ⊢
    rw [hcat, show rest.length + 1 = (dp_rows proj pm step mc (c0 :: rest)).length from
      hRlen.symm, getD_concat_self] at hj
    have hjlt : j < c.2.length := by
      by_contra hge
      rw [List.getD_eq_default _ _ (by simp; omega)] at hj
      exact absurd hj (by have := INFQ_half_lt; linarith)
    rw [getD_map_lt Prod.fst _ j INFQ (INFQ, -1) (by simpa using hjlt),
      getD_map_lt _ c.2 j (INFQ, -1) 0 hjlt] at hj
    rcases dp_inner_cases ((c0 :: rest).getD rest.length (0, [])).2
        (((dp_rows proj pm step mc (c0 :: rest)).getD rest.length []).map Prod.fst)
        mc step (bcost proj pm step c.1 (c.2.getD j 0)) (c.2.getD j 0) hmc (hb _ _) with
      hI | hK
    · rw [hI.1] at hj
      exact absurd hj (by have := INFQ_half_lt; linarith)
    · obtain ⟨k, hk, hptr, hgap, hle⟩ := hK
      have hfeasK : (((dp_rows proj pm step mc (c0 :: rest)).getD rest.length []).map
          Prod.fst).getD k INFQ < INFQ / 2 := lt_of_le_of_lt hle hj
      obtain ⟨hkd, hlenB, h0B, hlastB, hgapsB⟩ := ih c0 hc0 k hfeasK
      have hpy : (pyIdx (c.2.map (fun y =>
          dp_inner ((c0 :: rest).getD rest.length (0, [])).2
            (((dp_rows proj pm step mc (c0 :: rest)).getD rest.length []).map Prod.fst)
            mc step (bcost proj pm step c.1 y) y)) ((j : ℕ) : ℤ)).2 = ((k : ℕ) : ℤ) := by
        unfold pyIdx
        rw [if_pos (Int.natCast_nonneg j), Int.toNat_natCast,
          getD_map_lt _ c.2 j (INFQ, -1) 0 hjlt]
        exact hptr
      have hbw : backtrack_walk (dp_rows proj pm step mc (c0 :: (rest ++ [c])))
          (rest.length + 1) ((j : ℕ) : ℤ) =
          backtrack_walk (dp_rows proj pm step mc (c0 :: rest)) rest.length
            ((k : ℕ) : ℤ) ++ [((j : ℕ) : ℤ)] := by
        simp only [backtrack_walk]
        rw [hcat, show rest.length + 1 = (dp_rows proj pm step mc (c0 :: rest)).length
          from hRlen.symm, getD_concat_self, hpy,
          backtrack_walk_append _ _ _ _ (by rw [hRlen]; omega)]
      have hasm : assemble_chosen (c0 :: (rest ++ [c])) mc col_h
          (backtrack_walk (dp_rows proj pm step mc (c0 :: rest)) rest.length
            ((k : ℕ) : ℤ) ++ [((j : ℕ) : ℤ)]) =
          assemble_chosen (c0 :: rest) mc col_h
            (backtrack_walk (dp_rows proj pm step mc (c0 :: rest)) rest.length
              ((k : ℕ) : ℤ)) ++ [c.2.getD j 0] := by
        rw [show c0 :: (rest ++ [c]) = (c0 :: rest) ++ [c] from rfl,
          assemble_chosen_concat,
          assemble_chosen_cands_ext _ _ _ _ _
            (by rw [backtrack_walk_length]; simp),
          if_neg (not_lt.mpr (Int.natCast_nonneg j)),
          backtrack_walk_length, Int.toNat_natCast,
          show rest.length + 1 = (c0 :: rest).length from rfl, getD_concat_self]
      rw [hbw, hasm]
      refine ⟨?_, ?_, ?_, ?_, ?_⟩
      · rw [show c0 :: (rest ++ [c]) = (c0 :: rest) ++ [c] from rfl,
          show rest.length + 1 = (c0 :: rest).length from rfl, getD_concat_self]
        exact hjlt
      · rw [List.length_append, hlenB, List.length_singleton]
      · rw [getD_append_lt _ _ _ _ (by rw [hlenB]; omega)]
        exact h0B
      · rw [show rest.length + 1 + 1 = (assemble_chosen (c0 :: rest) mc col_h
            (backtrack_walk (dp_rows proj pm step mc (c0 :: rest)) rest.length
              ((k : ℕ) : ℤ))).length from by rw [hlenB],
          getD_concat_self,
          show c0 :: (rest ++ [c]) = (c0 :: rest) ++ [c] from rfl,
          show rest.length + 1 = (c0 :: rest).length from rfl, getD_concat_self]
      · intro t ht
        by_cases htlast : t + 1 < rest.length + 2
        · rw [getD_append_lt _ _ _ _ (by rw [hlenB]; omega),
            getD_append_lt _ _ _ _ (by rw [hlenB]; omega)]
          exact hgapsB t (by omega)
        · have ht1 : t = rest.length + 1 := by omega
          subst ht1
          rw [getD_append_lt _ _ _ _ (by rw [hlenB]; omega),
            show rest.length + 1 + 1 = (assemble_chosen (c0 :: rest) mc col_h
              (backtrack_walk (dp_rows proj pm step mc (c0 :: rest)) rest.length
                ((k : ℕ) : ℤ))).length from by rw [hlenB],
            getD_concat_self, hlastB]
          omega

/-- C2. Amended: when the column slice is nonempty, the expected count is at
least 2, two minimum cells fit in the column (`2*min_cell ≤ col_h`), and the
candidate DP reaches a feasible end state (best last-row cost below `INF/2`),
the splitter returns `N+1` boundaries starting at `0`, ending at `col_h`, with
every consecutive gap at least `min_cell` (hence strictly increasing). -/
theorem axis_partition_boundaries (G : Grid) (cx0 cx1 N : ℕ) (r : ℚ)
    (hN : 2 ≤ N) (hh : 0 < G.h) (hw : 0 < min cx1 G.w - cx0)
    (hmc2 : 2 * min_cell_of (col_step G N) r ≤ G.h)
    (hfeas : ¬ INFQ / 2 ≤
      (((col_dp_rows G cx0 cx1 N r).getD ((col_dp_rows G cx0 cx1 N r).length - 1)
          []).map Prod.fst).getD
        (argmin_first (((col_dp_rows G cx0 cx1 N r).getD
          ((col_dp_rows G cx0 cx1 N r).length - 1) []).map Prod.fst)) INFQ) :
    (split_column_boundaries G cx0 cx1 N r).length = N + 1 ∧
    (split_column_boundaries G cx0 cx1 N r).getD 0 0 = 0 ∧
    (split_column_boundaries G cx0 cx1 N r).getD N 0 = G.h ∧
    ∀ i : ℕ, i + 1 ≤ N →
      (split_column_boundaries G cx0 cx1 N r).getD i 0 +
          min_cell_of (col_step G N) r ≤
        (split_column_boundaries G cx0 cx1 N r).getD (i + 1) 0 := by
  have hcandlen : (col_cands G N r).length = N - 1 := by
    unfold col_cands
    rw [List.length_map, List.length_range']
  obtain ⟨c0, rest, hcands⟩ : ∃ c0 rest, col_cands G N r = c0 :: rest := by
    cases hc : col_cands G N r with
    | nil =>
      exfalso
      rw [hc] at hcandlen
      simp at hcandlen
      omega
    | cons a l => exact ⟨a, l, rfl⟩
  have hrestlen : rest.length = N - 2 := by
    rw [hcands] at hcandlen
    simp at hcandlen
    omega
  have hcolrows : col_dp_rows G cx0 cx1 N r = dp_rows (col_proj G cx0 cx1 N)
      (col_proj_max G cx0 cx1 N) (col_step G N) (min_cell_of (col_step G N) r)
      (c0 :: rest) := by
    unfold col_dp_rows
    rw [hcands]
  have hRlen : (col_dp_rows G cx0 cx1 N r).length = rest.length + 1 := by
    rw [hcolrows]
    exact dp_rows_length _ _ _ _ _ _
  have hmcpos : 0 < min_cell_of (col_step G N) r := by
    unfold min_cell_of
    omega
  have hbpos : ∀ a y : ℕ, 0 ≤ bcost (col_proj G cx0 cx1 N) (col_proj_max G cx0 cx1 N)
      (col_step G N) a y :=
    fun a y => bcost_nonneg _ _ _ (col_proj_nonneg G cx0 cx1 N)
      (col_proj_max_pos G cx0 cx1 N) a y
  have hc0mem : c0 ∈ col_cands G N r := by
    rw [hcands]
    exact List.mem_cons_self _ _
  have hc0low : ∀ y ∈ c0.2, min_cell_of (col_step G N) r ≤ y := by
    unfold col_cands at hc0mem
    obtain ⟨i, hi, hq⟩ := List.mem_map.mp hc0mem
    intro y hy
    rw [← hq] at hy
    exact (cand_ys_mem_bounds _ _ _ _ _ _ _ hy).1
  have hfeas2 : (((dp_rows (col_proj G cx0 cx1 N) (col_proj_max G cx0 cx1 N)
      (col_step G N) (min_cell_of (col_step G N) r) (c0 :: rest)).getD rest.length
      []).map Prod.fst).getD
      (argmin_first (((col_dp_rows G cx0 cx1 N r).getD
        ((col_dp_rows G cx0 cx1 N r).length - 1) []).map Prod.fst)) INFQ < INFQ / 2 := by
    rw [← hcolrows, show rest.length = (col_dp_rows G cx0 cx1 N r).length - 1 from
      by omega]
    exact lt_of_not_le hfeas
  obtain ⟨hjlt, hLen, h0, hlast, hgaps⟩ := dp_backtrack_good (col_proj G cx0 cx1 N)
    (col_proj_max G cx0 cx1 N) (col_step G N) (min_cell_of (col_step G N) r) G.h
    hmcpos hbpos rest c0 hc0low
    (argmin_first (((col_dp_rows G cx0 cx1 N r).getD
      ((col_dp_rows G cx0 cx1 N r).length - 1) []).map Prod.fst)) hfeas2
  have harea : ¬ (G.h * (min cx1 G.w - cx0) = 0) := by
    intro h
    rcases Nat.mul_eq_zero.mp h with h | h <;> omega
  have hrows0 : ¬ ((col_dp_rows G cx0 cx1 N r).length = 0) := by omega
  have hsplit : split_column_boundaries G cx0 cx1 N r =
      assemble_chosen (c0 :: rest) (min_cell_of (col_step G N) r) G.h
        (backtrack_walk (dp_rows (col_proj G cx0 cx1 N) (col_proj_max G cx0 cx1 N)
          (col_step G N) (min_cell_of (col_step G N) r) (c0 :: rest)) rest.length
          ((argmin_first (((col_dp_rows G cx0 cx1 N r).getD
            ((col_dp_rows G cx0 cx1 N r).length - 1) []).map Prod.fst) : ℕ) : ℤ))
        ++ [G.h] := by
    simp only [split_column_boundaries]
    rw [if_neg harea, if_neg hrows0, if_neg hfeas,
      show (col_dp_rows G cx0 cx1 N r).length - 1 = rest.length from by omega,
      hcands, hcolrows]
  rw [hsplit]
  have hlastc : (c0 :: rest).getD rest.length (0, []) =
      (y_expect_at (col_step G N) (N - 1),
        cand_ys G.h N (min_cell_of (col_step G N) r) (col_search_win G N)
          (col_step G N) (N - 1)) := by
    rw [← hcands]
    unfold col_cands
    rw [getD_map_lt _ _ _ _ 0 (by rw [List.length_range']; omega)]
    have hr : (List.range' 1 (N - 1)).getD rest.length 0 = 1 + rest.length := by
      rw [List.getD_eq_getElem?_getD,
        List.getElem?_eq_getElem (by rw [List.length_range']; omega),
        List.getElem_range']
      simp only [Option.getD_some]
      omega
    rw [hr, show 1 + rest.length = N - 1 from by omega]
  refine ⟨?_, ?_, ?_, ?_⟩
  · rw [List.length_append, hLen, List.length_singleton]
    omega
  · rw [getD_append_lt _ _ _ _ (by rw [hLen]; omega)]
    exact h0
  · rw [getD_concat_of_eq _ _ _ _ (by rw [hLen]; omega)]
  · intro i hi
    by_cases hin : i + 1 < rest.length + 2
    · rw [getD_append_lt _ _ _ _ (by rw [hLen]; omega),
        getD_append_lt _ _ _ _ (by rw [hLen]; omega)]
      exact hgaps i (by omega)
    · have hieq : i = rest.length + 1 := by omega
      subst hieq
      rw [getD_append_lt _ _ _ _ (by rw [hLen]; omega),
        getD_concat_of_eq _ _ _ _ (by rw [hLen]), hlast, hlastc]
      dsimp only
      have hymem := getD_mem_of_lt (cand_ys G.h N (min_cell_of (col_step G N) r)
        (col_search_win G N) (col_step G N) (N - 1)) (argmin_first
          (((col_dp_rows G cx0 cx1 N r).getD
            ((col_dp_rows G cx0 cx1 N r).length - 1) []).map Prod.fst)) 0
        (by rw [hlastc] at hjlt; exact hjlt)
      have hbnd := cand_ys_mem_bounds G.h N (min_cell_of (col_step G N) r)
        (col_search_win G N) (col_step G N) (N - 1) _ hymem
      have h1 : N - (N - 1) = 1 := by omega
      rw [h1] at hbnd
      omega

set_option maxRecDepth 100000 in
/-- Witness for `axis_partition_boundaries`: a blank 40×10 column split into
two cells; the DP is feasible and the result is `[0, 20, 40]` with both gaps
at least `min_cell = 18`. -/
theorem axis_partition_boundaries_witness :
    (split_column_boundaries ⟨40, 10, fun _ _ => false⟩ 0 10 2 (3/10)).length = 2 + 1 ∧
    (split_column_boundaries ⟨40, 10, fun _ _ => false⟩ 0 10 2 (3/10)).getD 0 0 = 0 ∧
    (split_column_boundaries ⟨40, 10, fun _ _ => false⟩ 0 10 2 (3/10)).getD 2 0 =
      (⟨40, 10, fun _ _ => false⟩ : Grid).h ∧
    ∀ i : ℕ, i + 1 ≤ 2 →
      (split_column_boundaries ⟨40, 10, fun _ _ => false⟩ 0 10 2 (3/10)).getD i 0 +
          min_cell_of (col_step ⟨40, 10, fun _ _ => false⟩ 2) (3/10) ≤
        (split_column_boundaries ⟨40, 10, fun _ _ => false⟩ 0 10 2 (3/10)).getD
          (i + 1) 0 :=
  axis_partition_boundaries ⟨40, 10, fun _ _ => false⟩ 0 10 2 (3/10) (by decide)
    (by decide) (by decide) (by decide) (by decide)

set_option maxRecDepth 100000 in
/-- Counterexample to C2 as stated: splitting a blank 20-pixel column into 2
cells takes the feasible-DP branch (not the fallback) and returns `[0, 18, 20]`
whose last gap is `2 < min_cell = 18` — the clamped third candidate window
ignores the upper spacing bound. -/
theorem axis_partition_min_gap_counterexample :
    split_column_boundaries ⟨20, 10, fun _ _ => false⟩ 0 10 2 (3/10) = [0, 18, 20] ∧
    min_cell_of (col_step ⟨20, 10, fun _ _ => false⟩ 2) (3/10) = 18 ∧
    ¬ INFQ / 2 ≤
      (((col_dp_rows ⟨20, 10, fun _ _ => false⟩ 0 10 2 (3/10)).getD
          ((col_dp_rows ⟨20, 10, fun _ _ => false⟩ 0 10 2 (3/10)).length - 1) []).map
        Prod.fst).getD (argmin_first (((col_dp_rows ⟨20, 10, fun _ _ => false⟩ 0 10 2
          (3/10)).getD ((col_dp_rows ⟨20, 10, fun _ _ => false⟩ 0 10 2
            (3/10)).length - 1) []).map Prod.fst)) INFQ ∧
    (split_column_boundaries ⟨20, 10, fun _ _ => false⟩ 0 10 2 (3/10)).getD 2 0 -
        (split_column_boundaries ⟨20, 10, fun _ _ => false⟩ 0 10 2 (3/10)).getD 1 0
      < 18 := by
  decide

/-- C8. Amended: the greedy fallback never raises (it is total), and on a step
whose feasible window is degenerate (`high ≤ low`) it returns the clamped
expected position `max(cur+1, min(y_expect, col_h-1))`; this equals the
uniform expected position `y_expect` only when `cur < y_expect ≤ col_h - 1`,
and otherwise deviates from the even spacing. -/
theorem greedy_fallback_step (proj : List ℚ) (proj_max step : ℚ)
    (min_cell search_win col_h N cur i : ℕ)
    (hdeg : col_h - (N - i) * min_cell ≤ cur + min_cell) :
    greedy_step proj proj_max step min_cell search_win col_h N cur i =
      max (cur + 1) (min (y_expect_at step i) (col_h - 1)) ∧
    (cur < y_expect_at step i → y_expect_at step i ≤ col_h - 1 →
      greedy_step proj proj_max step min_cell search_win col_h N cur i =
        y_expect_at step i) := by
  simp only [greedy_step]
  rw [if_pos hdeg]
  exact ⟨rfl, fun h1 h2 => by omega⟩

/-- Witness for `greedy_fallback_step`: the parameters of the blank 20-pixel
column split into 25 cells at step `i = 3` coming from `cur = 2`. -/
theorem greedy_fallback_step_witness :
    greedy_step [] 1 (4/5) 18 14 20 25 2 3 =
      max (2 + 1) (min (y_expect_at (4/5) 3) (20 - 1)) ∧
    (2 < y_expect_at (4/5) 3 → y_expect_at (4/5) 3 ≤ 20 - 1 →
      greedy_step [] 1 (4/5) 18 14 20 25 2 3 = y_expect_at (4/5) 3) :=
  greedy_fallback_step [] 1 (4/5) 18 14 20 25 2 3 (by decide)

set_option maxRecDepth 100000 in
/-- Counterexample to C8 as stated: on a blank 20-pixel column split into 25
cells the DP has no feasible path (fallback reached), the uniform expected
position of boundary 3 is `round(0.8*3) = 2`, but the fallback emits `3`. -/
theorem greedy_fallback_not_uniform_counterexample :
    INFQ / 2 ≤
      (((col_dp_rows ⟨20, 4, fun _ _ => false⟩ 0 4 25 (3/10)).getD
          ((col_dp_rows ⟨20, 4, fun _ _ => false⟩ 0 4 25 (3/10)).length - 1) []).map
        Prod.fst).getD (argmin_first (((col_dp_rows ⟨20, 4, fun _ _ => false⟩ 0 4 25
          (3/10)).getD ((col_dp_rows ⟨20, 4, fun _ _ => false⟩ 0 4 25
            (3/10)).length - 1) []).map Prod.fst)) INFQ ∧
    y_expect_at (col_step ⟨20, 4, fun _ _ => false⟩ 25) 3 = 2 ∧
    (split_column_boundaries ⟨20, 4, fun _ _ => false⟩ 0 4 25 (3/10)).getD 3 0 = 3 := by
  decide

end

end InkGrid
